import Mathlib

/-!
A shallow embedding of `src/spotify_service.py` from the SpotiTransfer
repository, covering its two functions:

* `get_all_saved_tracks` — the paginated extractor generator;
* `transfer_tracks` — the transporter generator (ordered mode and batch mode).

External effects (the spotipy client call, `requests.put`, `time.sleep`, and
the events produced by `yield`) are made observable as an explicit trace of
steps, and the behaviour of the outside world is an explicit environment
parameter: for the transporter, the outcome of every HTTP `PUT` attempt; for
the extractor, the outcome of every page fetch.  Sub-second delays are
recorded in milliseconds.  Machine reals do not occur; the only arithmetic is
on `Nat`.
-/

namespace SpotiTransfer

/-- A track dict of the snapshot list consumed by `transfer_tracks`
(`tracks: List of track dicts with 'id' and 'added_at'`; `'name'` is also
read, for events).  `added_at` is the ISO 8601 timestamp string; Python
compares these keys as plain strings (lexicographically), which the embedding
mirrors with `String` order. -/
structure Track where
  id : String
  name : String
  added_at : String
deriving DecidableEq

/-- Outcome of one `requests.put("https://api.spotify.com/v1/me/tracks", ...)`
call: either the call raised an exception (carrying `str(e)`), or it returned
a response with an HTTP status code and an optional integer `Retry-After`
header (`none` models an absent header, in which case the code defaults
to 30). -/
inductive PutResult where
  | exn (message : String)
  | resp (status : Nat) (retryAfter : Option Nat)
deriving DecidableEq

/-- The event dicts yielded by `transfer_tracks`:
`{'type': 'rate_limit', ...}`, `{'type': 'progress', ...}` (whose
`current_track` key is present only in ordered mode, hence the `Option`),
`{'type': 'error', ..., 'track': ...}`, `{'type': 'error', ..., 'batch': ...}`
and `{'type': 'complete', ...}`. -/
inductive Event where
  | rateLimit (retryAfter : Nat)
  | progress (transferred total percent : Nat) (currentTrack : Option String)
  | error (message : String) (trackName : String)
  | errorBatch (message : String) (batchStart : Nat)
  | complete (transferred total : Nat)
deriving DecidableEq

/-- One observable step of `transfer_tracks`: issuing a single-item `PUT`
insertion call (`requests.put` with body `{"ids": [track['id']]}`), issuing a
batch insertion call (`current_user_saved_tracks_add`), yielding an event, or
sleeping for a number of milliseconds. -/
inductive Step where
  | put (t : Track)
  | putBatch (ids : List String)
  | emit (e : Event)
  | sleep (ms : Nat)
deriving DecidableEq

/-- `log2fuel fuel n` is `⌊log₂ n⌋` for `n ≥ 1` whenever `fuel ≥ n` (each
step halves `n`): binary logarithm written with structural fuel recursion so
that it evaluates by kernel reduction. -/
def log2fuel : Nat → Nat → Nat
  | 0, _ => 0
  | fuel + 1, n => if 2 ≤ n then log2fuel fuel (n / 2) + 1 else 0

/-- `⌊log₂ n⌋` for `n ≥ 1` (and 0 at `n = 0`). -/
def natLog2 (n : Nat) : Nat :=
  log2fuel n n

/-- Round the exact quotient `a / b` (`b ≠ 0`) to the nearest integer, ties
to even — the significand rounding of IEEE-754 round-to-nearest-even. -/
def rneDiv (a b : Nat) : Nat :=
  let q := a / b
  let r := a % b
  if 2 * r < b then q
  else if b < 2 * r then q + 1
  else if q % 2 = 0 then q else q + 1

/-- `⌊log₂ (t / T)⌋` of the exact quotient, for `t, T ≥ 1`: the bit-length
difference of `t` and `T`, corrected by one exact comparison. -/
def floorLog2Div (t T : Nat) : Int :=
  let k : Int := (natLog2 t : Int) - (natLog2 T : Int)
  match k with
  | .ofNat n => if T * 2 ^ n ≤ t then k else k - 1
  | .negSucc n => if T ≤ t * 2 ^ (n + 1) then k else k - 1

/-- The IEEE-754 binary64 value of `t / T` (Python's true division of two
ints is the correctly rounded double of the exact quotient), as an exact
dyadic pair `(m, E)` denoting `m · 2^E`: the quotient is scaled to a 53-bit
significand position and rounded to nearest, ties to even.  Exact for
quotients in the binary64 normal range, which covers every value this
embedding produces; `(0, 0)` for `t = 0` and for the (unreachable, in Python
a `ZeroDivisionError`) `T = 0`. -/
def b64Div (t T : Nat) : Nat × Int :=
  if t = 0 ∨ T = 0 then (0, 0)
  else
    let e := floorLog2Div t T
    let m := match 52 - e with
      | Int.ofNat s => rneDiv (t * 2 ^ s) T
      | Int.negSucc s => rneDiv t (T * 2 ^ (s + 1))
    (m, e - 52)

/-- The IEEE-754 binary64 rounding of an exact nonnegative dyadic value
`M · 2^E` (the result of multiplying a double by the exactly representable
100), again as an exact dyadic pair: exact when `M` fits in 53 bits,
otherwise the significand is rounded to nearest, ties to even.  Exact in the
binary64 normal range. -/
def b64Dyadic (M : Nat) (E : Int) : Nat × Int :=
  if M = 0 then (0, 0)
  else
    match 52 - (natLog2 M : Int) with
    | Int.ofNat s => (M * 2 ^ s, E - s)
    | Int.negSucc s => (rneDiv M (2 ^ (s + 1)), E + (s + 1))

/-- `⌊m · 2^E⌋` of a nonnegative dyadic value: `int()` truncation of a
nonnegative float. -/
def dyadicFloor (m : Nat) (E : Int) : Nat :=
  match E with
  | .ofNat n => m * 2 ^ n
  | .negSucc n => m / 2 ^ (n + 1)

/-- `int((transferred / total) * 100)` of the source, under IEEE-754 binary64
semantics: `transferred / total` is rounded to the nearest double, the
product with (the exactly representable) `100` is rounded to the nearest
double, and `int` truncates the nonnegative result toward zero.  Both
roundings are computed exactly in dyadic integer arithmetic; the model is
exact for values in the binary64 normal range, which covers every emitted
percent.  Note this is NOT always `⌊transferred * 100 / total⌋`: e.g.
`percentOf 290 500 = 57` while `⌊290 * 100 / 500⌋ = 58`, because the double
nearest `290/500` lies just below `0.58`. -/
def percentOf (transferred total : Nat) : Nat :=
  let d := b64Div transferred total
  let p := b64Dyadic (d.1 * 100) d.2
  dyadicFloor p.1 p.2

/-- The sort key order of `sorted(tracks, key=lambda t: t['added_at'])`:
lexicographic string comparison of the `added_at` keys. -/
def addedLe (a b : Track) : Prop :=
  a.added_at ≤ b.added_at

instance : DecidableRel addedLe := fun a b =>
  decidable_of_iff (a.added_at.toList ≤ b.added_at.toList)
    String.le_iff_toList_le.symm

instance : IsTotal Track addedLe :=
  ⟨fun a b => le_total a.added_at b.added_at⟩

instance : IsTrans Track addedLe :=
  ⟨fun _ _ _ hab hbc => le_trans hab hbc⟩

/-- `sorted(tracks, key=lambda t: t['added_at'])`: Python's `sorted` is a
stable ascending sort; the output of a stable ascending sort is uniquely
determined by the input, and it is embedded here as Mathlib's stable
`List.insertionSort`. -/
def sortByAddedAt (tracks : List Track) : List Track :=
  tracks.insertionSort addedLe

/-- Ordered-mode environment: `env i a` is the outcome of attempt `a`
(0 = first attempt, 1 = the retry after a 429) of the `PUT` call for the
`i`-th track of the sorted sequence. -/
abbrev PutEnv := Nat → Nat → PutResult

/-- Batch-mode environment: `benv i` is `none` when the bulk add call for the
batch starting at index `i` succeeds, `some msg` when it raises an exception
with `str(e) = msg`. -/
abbrev BatchEnv := Nat → Option String

/-- The conditional progress yield
`if transferred % 10 == 0 or transferred == total: yield {...}`
of the ordered loop. -/
def progressSteps (transferred total : Nat) (name : String) : List Step :=
  if transferred % 10 = 0 ∨ transferred = total then
    [.emit (.progress transferred total (percentOf transferred total) (some name))]
  else []

/-- The body of one iteration of the ordered-mode `for` loop
(lines 88–130 of `spotify_service.py`) for the `i`-th sorted track, given the
running `transferred` count: the `PUT` call, the 429 branch (rate-limit
event, sleep `retry_after` seconds, one retry whose response is not
examined), the unconditional `transferred += 1` reached whenever no exception
was raised, the conditional progress yield, the `except` branch yielding an
error event, and the trailing `time.sleep(0.15)`.
Returns the steps of the iteration and the updated `transferred`. -/
def itemSteps (env : PutEnv) (total i transferred : Nat) (t : Track) :
    List Step × Nat :=
  match env i 0 with
  | .exn m => ([.put t, .emit (.error m t.name), .sleep 150], transferred)
  | .resp s ra =>
    if s = 429 then
      let r := ra.getD 30
      match env i 1 with
      | .exn m =>
        ([.put t, .emit (.rateLimit r), .sleep (r * 1000), .put t,
          .emit (.error m t.name), .sleep 150], transferred)
      | .resp _ _ =>
        ([.put t, .emit (.rateLimit r), .sleep (r * 1000), .put t] ++
          progressSteps (transferred + 1) total t.name ++ [.sleep 150],
         transferred + 1)
    else
      ([.put t] ++ progressSteps (transferred + 1) total t.name ++ [.sleep 150],
       transferred + 1)

/-- The ordered-mode `for` loop over the sorted track list, from item index
`i` with running count `transferred`. -/
def orderedLoop (env : PutEnv) (total : Nat) :
    Nat → Nat → List Track → List Step × Nat
  | _, transferred, [] => ([], transferred)
  | i, transferred, t :: ts =>
    let s := itemSteps env total i transferred t
    let rest := orderedLoop env total (i + 1) s.2 ts
    (s.1 ++ rest.1, rest.2)

/-- Python `len(tracks)`: a non-mutating read of the caller's list; returns
the length together with the list as it stands after the call. -/
def pyLen (xs : List Track) : Nat × List Track :=
  (xs.length, xs)

/-- Python `sorted(tracks, key=...)`: allocates a NEW sorted list and leaves
its argument unmodified (unlike `tracks.sort()`); returns the fresh sorted
list together with the caller's list as it stands after the call. -/
def pySorted (xs : List Track) : List Track × List Track :=
  (sortByAddedAt xs, xs)

/-- Python `tracks[i:j]` (with `0 ≤ i ≤ j`): copies the slice and leaves its
argument unmodified; returns the slice together with the caller's list as it
stands after the call. -/
def pySlice (xs : List Track) (i j : Nat) : List Track × List Track :=
  (((xs.drop i).take (j - i)), xs)

/-- The batch-mode `for i in range(0, total, batch_size)` loop
(lines 135–149), with `batch_size = 50`, threading the caller's list `xs`
through each slice read.  `fuel` bounds the recursion; `total + 1` iterations
always suffice since `i` grows by 50 each time.  Returns the steps, the final
`transferred` count, and the caller's list after the loop. -/
def batchLoop (benv : BatchEnv) (total : Nat) :
    Nat → Nat → Nat → List Track → List Step × Nat × List Track
  | 0, _, transferred, xs => ([], transferred, xs)
  | fuel + 1, i, transferred, xs =>
    if i < total then
      let sl := pySlice xs i (i + 50)
      match benv i with
      | none =>
        let tr := transferred + sl.1.length
        let s := [Step.putBatch (sl.1.map (·.id)),
                  .emit (.progress tr total (percentOf tr total) none), .sleep 500]
        let rest := batchLoop benv total fuel (i + 50) tr sl.2
        (s ++ rest.1, rest.2)
      | some m =>
        let s := [Step.putBatch (sl.1.map (·.id)),
                  .emit (.errorBatch m i), .sleep 500]
        let rest := batchLoop benv total fuel (i + 50) transferred sl.2
        (s ++ rest.1, rest.2)
    else ([], transferred, xs)

/-- `transfer_tracks(sp_client, tracks, access_token, preserve_order)`:
produces the full observable trace (insertion calls, yielded events, sleeps)
and the caller's `tracks` list as it stands after the generator is fully
consumed.  Ordered mode sorts a fresh copy and inserts one by one; batch
mode slices the caller's list in chunks of 50.  Both end with the
`{'type': 'complete', ...}` event. -/
def transfer_tracks (tracks : List Track) (preserve_order : Bool)
    (env : PutEnv) (benv : BatchEnv) : List Step × List Track :=
  let lt := pyLen tracks
  let total := lt.1
  if preserve_order then
    let st := pySorted lt.2
    let r := orderedLoop env total 0 0 st.1
    (r.1 ++ [.emit (.complete r.2 total)], st.2)
  else
    let r := batchLoop benv total (total + 1) 0 0 lt.2
    (r.1 ++ [.emit (.complete r.2.1 total)], r.2.2)

/-- The observable trace of a `transfer_tracks` run. -/
def transferTrace (tracks : List Track) (preserve_order : Bool)
    (env : PutEnv) (benv : BatchEnv) : List Step :=
  (transfer_tracks tracks preserve_order env benv).1

/-! ## Trace projections (transporter) -/

/-- The single-item insertion calls of a trace, in order. -/
def putsOf (tr : List Step) : List Track :=
  tr.filterMap fun s =>
    match s with
    | .put t => some t
    | _ => none

/-- The `(transferred, total, percent, current_track)` fields of the progress
events of a trace, in order. -/
def progressOf (tr : List Step) : List (Nat × Nat × Nat × Option String) :=
  tr.filterMap fun s =>
    match s with
    | .emit (.progress a b c n) => some (a, b, c, n)
    | _ => none

/-- The `(message, track-name)` fields of the per-track error events of a
trace, in order. -/
def errorsOf (tr : List Step) : List (String × String) :=
  tr.filterMap fun s =>
    match s with
    | .emit (.error m n) => some (m, n)
    | _ => none

/-- The `retry_after` fields of the rate-limit events of a trace, in
order. -/
def rlOf (tr : List Step) : List Nat :=
  tr.filterMap fun s =>
    match s with
    | .emit (.rateLimit r) => some r
    | _ => none

/-- The `(transferred, total)` fields of the complete events of a trace, in
order. -/
def completesOf (tr : List Step) : List (Nat × Nat) :=
  tr.filterMap fun s =>
    match s with
    | .emit (.complete a b) => some (a, b)
    | _ => none

/-! ## Derived per-item predicates (transporter, ordered mode) -/

/-- Whether a `PUT` outcome is a returned response with status 429. -/
def isRL429 : PutResult → Bool
  | .resp s _ => s = 429
  | .exn _ => false

/-- Whether the `i`-th sorted item ends up counted (`transferred += 1` is
reached): true unless the first attempt raises, or the first attempt returns
429 and the retry raises.  In particular any returned response — success
status, error status, even a second 429 — counts the item. -/
def itemCounted (env : PutEnv) (i : Nat) : Bool :=
  match env i 0 with
  | .exn _ => false
  | .resp s _ =>
    if s = 429 then
      match env i 1 with
      | .exn _ => false
      | .resp _ _ => true
    else true

/-- The exception message reaching the `except` branch for the `i`-th sorted
item, if any: the first attempt's exception, or (after a 429 response) the
retry's exception. -/
def itemErrMsg (env : PutEnv) (i : Nat) : Option String :=
  match env i 0 with
  | .exn m => some m
  | .resp s _ =>
    if s = 429 then
      match env i 1 with
      | .exn m => some m
      | .resp _ _ => none
    else none

/-- The single-item insertion calls the ordered loop issues from item index
`i` on: each item is `PUT` once, and once more (same track) when the first
attempt returned 429. -/
def callsFrom (env : PutEnv) : Nat → List Track → List Track
  | _, [] => []
  | i, t :: ts =>
    (if isRL429 (env i 0) then [t, t] else [t]) ++ callsFrom env (i + 1) ts

/-- How many of the items from index `i` on end up counted. -/
def countedFrom (env : PutEnv) : Nat → List Track → Nat
  | _, [] => 0
  | i, _ :: ts => (if itemCounted env i then 1 else 0) + countedFrom env (i + 1) ts

/-- The `(message, track-name)` pairs of the items from index `i` on whose
attempt raises, in item order. -/
def errsFrom (env : PutEnv) : Nat → List Track → List (String × String)
  | _, [] => []
  | i, t :: ts =>
    (match itemErrMsg env i with
     | some m => [(m, t.name)]
     | none => []) ++ errsFrom env (i + 1) ts

/-- The `(running-count, track-name)` pairs of the counted items from index
`i` on, with running count starting at `c`. -/
def countedSeq (env : PutEnv) : Nat → Nat → List Track → List (Nat × String)
  | _, _, [] => []
  | i, c, t :: ts =>
    if itemCounted env i then (c + 1, t.name) :: countedSeq env (i + 1) (c + 1) ts
    else countedSeq env (i + 1) c ts

/-- The `retry_after` values of the rate-limit events produced for the items
from index `i` on: one per item whose first attempt returns status 429,
carrying the `Retry-After` header value or the default 30. -/
def rlSeq (env : PutEnv) : Nat → List Track → List Nat
  | _, [] => []
  | i, _ :: ts =>
    (match env i 0 with
     | .resp s ra => if s = 429 then [ra.getD 30] else []
     | .exn _ => []) ++ rlSeq env (i + 1) ts

/-- The per-item step segments of the ordered loop, from item index `i` with
running count `c`. -/
def orderedSegs (env : PutEnv) (total : Nat) :
    Nat → Nat → List Track → List (List Step)
  | _, _, [] => []
  | i, c, t :: ts =>
    (itemSteps env total i c t).1 ::
      orderedSegs env total (i + 1) (itemSteps env total i c t).2 ts

/-! ## Extractor: `get_all_saved_tracks` -/

/-- The fields of a non-null `item['track']` object that the extractor reads:
`id`, `name`, the artist objects' `name` fields, `album.name`, and the album
image entries (modelled by their `url` field, the only one read). -/
structure TrackData where
  id : String
  name : String
  artists : List String
  album : String
  images : List String
deriving DecidableEq

/-- An entry of `results['items']`: the (possibly null) track object and the
`added_at` timestamp. -/
structure SavedItem where
  track : Option TrackData
  added_at : String
deriving DecidableEq

/-- A successful `current_user_saved_tracks` response: the API-reported
`total` and the page's `items`. -/
structure Page where
  total : Nat
  items : List SavedItem
deriving DecidableEq

/-- Outcome of one `sp_client.current_user_saved_tracks(limit=50, offset=o)`
call: a `SpotifyException` with `http_status == 429` (carrying the optional
integer `Retry-After` header), any other raised exception (re-raised by the
generator), or a successful page. -/
inductive ApiResult where
  | raise429 (retryAfter : Option Nat)
  | raiseOther (status : Nat) (message : String)
  | ok (page : Page)
deriving DecidableEq

/-- Extractor environment: `api k` is the outcome of the `k`-th
`current_user_saved_tracks` call of the run (retries of the same offset are
separate calls). -/
abbrev ApiEnv := Nat → ApiResult

/-- The normalized track dict yielded for a non-null item (lines 46–54):
artists joined by `", "`, image the first image entry's url if any image
exists, else `None`. -/
structure TrackRecord where
  id : String
  name : String
  artists : String
  album : String
  image : Option String
  added_at : String
deriving DecidableEq

/-- The event dicts yielded by `get_all_saved_tracks`. -/
inductive ExEvent where
  | total (total : Nat)
  | track (record : TrackRecord)
  | progress (fetched total : Nat)
  | rateLimit (retryAfter : Nat)
deriving DecidableEq

/-- One observable step of the extractor: issuing a page fetch at an offset,
yielding an event, or sleeping for a number of milliseconds. -/
inductive ExStep where
  | fetch (offset : Nat)
  | emit (e : ExEvent)
  | sleep (ms : Nat)
deriving DecidableEq

/-- How a (fuel-bounded) run of the extractor ends: the pagination loop
`break`s normally, an exception propagates out of the generator (with the
`SpotifyException` status and message), or the fuel bound is hit while the
loop would continue. -/
inductive ExOutcome where
  | finished (steps : List ExStep)
  | failed (steps : List ExStep) (status : Nat) (message : String)
  | fuelOut (steps : List ExStep)
deriving DecidableEq

/-- The observable steps of a run, whatever its outcome. -/
def ExOutcome.steps : ExOutcome → List ExStep
  | .finished tr => tr
  | .failed tr _ _ => tr
  | .fuelOut tr => tr

/-- Prefix some steps onto a run outcome. -/
def ExOutcome.prepend (s : List ExStep) : ExOutcome → ExOutcome
  | .finished tr => .finished (s ++ tr)
  | .failed tr st m => .failed (s ++ tr) st m
  | .fuelOut tr => .fuelOut (s ++ tr)

/-- Normalization of one non-null item (the dict of lines 46–54). -/
def recordOfItem (t : TrackData) (addedAt : String) : TrackRecord :=
  { id := t.id
    name := t.name
    artists := String.intercalate ", " t.artists
    album := t.album
    image := t.images.head?
    added_at := addedAt }

/-- The `for item in items` body (lines 42–54): null tracks are skipped with
`continue` (no event, no counting), every other item yields one track
event. -/
def itemEvents (items : List SavedItem) : List ExStep :=
  items.filterMap fun it =>
    it.track.map fun t => ExStep.emit (.track (recordOfItem t it.added_at))

/-- The `while True` pagination loop of `get_all_saved_tracks`
(lines 23–60), from call index `k`, offset `offset`, and Python variable
`total` (`none` = still `None`).  On a 429 the loop emits the rate-limit
event, sleeps `retry_after` seconds and `continue`s at the same offset; any
other exception propagates; on a page, `total` is set (with its event) on
first success, then an empty item list `break`s, otherwise the items are
yielded, `offset += 50`, the progress event `min(offset, total)` is yielded
and the loop sleeps 300 ms.  `fuel` bounds the number of iterations (the
source loop can run unboundedly under sustained rate limiting). -/
def extractLoop (api : ApiEnv) : Nat → Nat → Nat → Option Nat → ExOutcome
  | 0, _, _, _ => .fuelOut []
  | fuel + 1, k, offset, tot? =>
    match api k with
    | .raise429 ra =>
      let r := ra.getD 30
      .prepend [.fetch offset, .emit (.rateLimit r), .sleep (r * 1000)]
        (extractLoop api fuel (k + 1) offset tot?)
    | .raiseOther st m => .failed [.fetch offset] st m
    | .ok page =>
      let tEvs : List ExStep :=
        match tot? with
        | none => [.emit (.total page.total)]
        | some _ => []
      let total := tot?.getD page.total
      if page.items.isEmpty then
        .finished ([.fetch offset] ++ tEvs)
      else
        .prepend
          ([.fetch offset] ++ tEvs ++ itemEvents page.items ++
            [.emit (.progress (min (offset + 50) total) total), .sleep 300])
          (extractLoop api fuel (k + 1) (offset + 50) (some total))

/-- `get_all_saved_tracks(sp_client)`: the pagination loop started at
`offset = 0`, `total = None`, with `fuel` bounding the iteration count. -/
def get_all_saved_tracks (api : ApiEnv) (fuel : Nat) : ExOutcome :=
  extractLoop api fuel 0 0 none

/-! ## Trace projections (extractor) -/

/-- The offsets of the page-fetch calls of a trace, in order. -/
def fetchOffsets (tr : List ExStep) : List Nat :=
  tr.filterMap fun s =>
    match s with
    | .fetch o => some o
    | _ => none

/-- The values of the total events of a trace, in order. -/
def totalsOf (tr : List ExStep) : List Nat :=
  tr.filterMap fun s =>
    match s with
    | .emit (.total n) => some n
    | _ => none

/-- The `(fetched, total)` fields of the extraction progress events of a
trace, in order. -/
def exProgressOf (tr : List ExStep) : List (Nat × Nat) :=
  tr.filterMap fun s =>
    match s with
    | .emit (.progress f n) => some (f, n)
    | _ => none

/-- The track records of the track events of a trace, in order. -/
def trackRecsOf (tr : List ExStep) : List TrackRecord :=
  tr.filterMap fun s =>
    match s with
    | .emit (.track r) => some r
    | _ => none

/-- The `retry_after` fields of the extractor's rate-limit events, in
order. -/
def exRlOf (tr : List ExStep) : List Nat :=
  tr.filterMap fun s =>
    match s with
    | .emit (.rateLimit r) => some r
    | _ => none

/-! ## Derived call classifications (extractor) -/

/-- Whether an API call outcome is a successful page. -/
def isOkCall : ApiResult → Bool
  | .ok _ => true
  | _ => false

/-- Whether an API call outcome is a successful page with at least one item
(a page that advances the offset). -/
def isNonemptyOk : ApiResult → Bool
  | .ok p => !p.items.isEmpty
  | _ => false

/-- Whether an API call outcome is a successful page with zero items (the
page that terminates pagination). -/
def isEmptyOk : ApiResult → Bool
  | .ok p => p.items.isEmpty
  | _ => false

/-- The items of a successful page outcome, `[]` otherwise. -/
def itemsOf : ApiResult → List SavedItem
  | .ok p => p.items
  | _ => []

/-- Whether an API call outcome is a 429 `SpotifyException`. -/
def isRaise429 : ApiResult → Bool
  | .raise429 _ => true
  | _ => false

/-- The API-reported total of a successful page outcome, 0 otherwise. -/
def totalOfRes : ApiResult → Nat
  | .ok p => p.total
  | _ => 0

/-- The per-call step segments of the pagination loop: the `m`-th entry is
the contiguous block of steps produced by the `(k+m)`-th API call (its fetch,
and the events and sleeps up to the next fetch or loop exit). -/
def exSegs (api : ApiEnv) : Nat → Nat → Nat → Option Nat → List (List ExStep)
  | 0, _, _, _ => []
  | fuel + 1, k, offset, tot? =>
    match api k with
    | .raise429 ra =>
      let r := ra.getD 30
      [ExStep.fetch offset, .emit (.rateLimit r), .sleep (r * 1000)] ::
        exSegs api fuel (k + 1) offset tot?
    | .raiseOther _ _ => [[ExStep.fetch offset]]
    | .ok page =>
      let tEvs : List ExStep :=
        match tot? with
        | none => [.emit (.total page.total)]
        | some _ => []
      let total := tot?.getD page.total
      if page.items.isEmpty then
        [[ExStep.fetch offset] ++ tEvs]
      else
        ([ExStep.fetch offset] ++ tEvs ++ itemEvents page.items ++
          [.emit (.progress (min (offset + 50) total) total), .sleep 300]) ::
          exSegs api fuel (k + 1) (offset + 50) (some total)

/-! ## Lemmas: ordered-mode loop projections -/

theorem putsOf_append (a b : List Step) :
    putsOf (a ++ b) = putsOf a ++ putsOf b := by
  simp [putsOf, List.filterMap_append]

theorem progressOf_append (a b : List Step) :
    progressOf (a ++ b) = progressOf a ++ progressOf b := by
  simp [progressOf, List.filterMap_append]

theorem errorsOf_append (a b : List Step) :
    errorsOf (a ++ b) = errorsOf a ++ errorsOf b := by
  simp [errorsOf, List.filterMap_append]

theorem rlOf_append (a b : List Step) :
    rlOf (a ++ b) = rlOf a ++ rlOf b := by
  simp [rlOf, List.filterMap_append]

theorem completesOf_append (a b : List Step) :
    completesOf (a ++ b) = completesOf a ++ completesOf b := by
  simp [completesOf, List.filterMap_append]

theorem putsOf_progressSteps (c total : Nat) (n : String) :
    putsOf (progressSteps c total n) = [] := by
  unfold progressSteps
  split <;> simp [putsOf]

theorem errorsOf_progressSteps (c total : Nat) (n : String) :
    errorsOf (progressSteps c total n) = [] := by
  unfold progressSteps
  split <;> simp [errorsOf]

theorem rlOf_progressSteps (c total : Nat) (n : String) :
    rlOf (progressSteps c total n) = [] := by
  unfold progressSteps
  split <;> simp [rlOf]

theorem completesOf_progressSteps (c total : Nat) (n : String) :
    completesOf (progressSteps c total n) = [] := by
  unfold progressSteps
  split <;> simp [completesOf]

theorem progressOf_progressSteps (c total : Nat) (n : String) :
    progressOf (progressSteps c total n) =
      if c % 10 = 0 ∨ c = total then [(c, total, percentOf c total, some n)]
      else [] := by
  unfold progressSteps
  split <;> simp_all [progressOf]

/-- The insertion calls of the ordered loop are `callsFrom`: one `PUT` per
item, plus one retry `PUT` for items whose first attempt returned 429. -/
theorem orderedLoop_puts (env : PutEnv) (total : Nat) :
    ∀ (l : List Track) (i c : Nat),
      putsOf (orderedLoop env total i c l).1 = callsFrom env i l := by
  intro l
  induction l with
  | nil => intro i c; simp [orderedLoop, putsOf, callsFrom]
  | cons t ts ih =>
    intro i c
    simp only [orderedLoop, callsFrom]
    rw [putsOf_append, ih]
    congr 1
    cases h0 : env i 0 with
    | exn m => simp [itemSteps, h0, isRL429, putsOf]
    | resp s ra =>
      by_cases hs : s = 429
      · subst hs
        cases h1 : env i 1 with
        | exn m => simp [itemSteps, h0, h1, isRL429, putsOf]
        | resp s2 ra2 =>
          simp only [itemSteps, h0, h1, if_true]
          rw [putsOf_append, putsOf_append, putsOf_progressSteps]
          simp [putsOf, isRL429, h0]
      · simp only [itemSteps, h0]
        rw [if_neg hs]
        rw [putsOf_append, putsOf_append, putsOf_progressSteps]
        simp [putsOf, isRL429, h0, hs]

/-- The running count after an item: incremented exactly when the item is
counted. -/
theorem itemSteps_snd (env : PutEnv) (total i c : Nat) (t : Track) :
    (itemSteps env total i c t).2 = if itemCounted env i then c + 1 else c := by
  cases h0 : env i 0 with
  | exn m => simp [itemSteps, itemCounted, h0]
  | resp s ra =>
    by_cases hs : s = 429
    · subst hs
      cases h1 : env i 1 <;> simp [itemSteps, itemCounted, h0] <;> simp_all
    · simp [itemSteps, itemCounted, h0, hs]

/-- The final `transferred` of the ordered loop counts the counted items. -/
theorem orderedLoop_snd (env : PutEnv) (total : Nat) :
    ∀ (l : List Track) (i c : Nat),
      (orderedLoop env total i c l).2 = c + countedFrom env i l := by
  intro l
  induction l with
  | nil => intro i c; simp [orderedLoop, countedFrom]
  | cons t ts ih =>
    intro i c
    simp only [orderedLoop, countedFrom]
    rw [ih, itemSteps_snd]
    split <;> omega

/-- The per-track error events of the ordered loop are `errsFrom`: one per
item whose attempt (first, or the post-429 retry) raised, carrying the
exception message and the track name. -/
theorem orderedLoop_errors (env : PutEnv) (total : Nat) :
    ∀ (l : List Track) (i c : Nat),
      errorsOf (orderedLoop env total i c l).1 = errsFrom env i l := by
  intro l
  induction l with
  | nil => intro i c; simp [orderedLoop, errorsOf, errsFrom]
  | cons t ts ih =>
    intro i c
    simp only [orderedLoop, errsFrom]
    rw [errorsOf_append, ih]
    congr 1
    cases h0 : env i 0 with
    | exn m => simp [itemSteps, itemErrMsg, h0, errorsOf]
    | resp s ra =>
      by_cases hs : s = 429
      · subst hs
        cases h1 : env i 1 with
        | exn m => simp [itemSteps, itemErrMsg, h0, h1, errorsOf]
        | resp s2 ra2 =>
          simp only [itemSteps, h0, h1, if_true]
          rw [errorsOf_append, errorsOf_append, errorsOf_progressSteps]
          simp [errorsOf, itemErrMsg, h0, h1]
      · simp only [itemSteps, h0]
        rw [if_neg hs]
        rw [errorsOf_append, errorsOf_append, errorsOf_progressSteps]
        simp [errorsOf, itemErrMsg, h0, hs]

/-- The rate-limit events of the ordered loop are `rlSeq`: one per item whose
first attempt returned 429, with the header value or default 30. -/
theorem orderedLoop_rl (env : PutEnv) (total : Nat) :
    ∀ (l : List Track) (i c : Nat),
      rlOf (orderedLoop env total i c l).1 = rlSeq env i l := by
  intro l
  induction l with
  | nil => intro i c; simp [orderedLoop, rlOf, rlSeq]
  | cons t ts ih =>
    intro i c
    simp only [orderedLoop, rlSeq]
    rw [rlOf_append, ih]
    congr 1
    cases h0 : env i 0 with
    | exn m => simp [itemSteps, h0, rlOf]
    | resp s ra =>
      by_cases hs : s = 429
      · subst hs
        cases h1 : env i 1 with
        | exn m => simp [itemSteps, h0, h1, rlOf]
        | resp s2 ra2 =>
          simp only [itemSteps, h0, h1, if_true]
          rw [rlOf_append, rlOf_append, rlOf_progressSteps]
          simp [rlOf]
      · simp only [itemSteps, h0]
        rw [if_neg hs, if_neg hs]
        dsimp only
        rw [rlOf_append, rlOf_append, rlOf_progressSteps]
        simp [rlOf]

/-- The progress events of the ordered loop: exactly the counted items whose
running count is a multiple of 10 or equals `total`, with
`percent = ⌊transferred·100/total⌋` and the item's name. -/
theorem orderedLoop_progress (env : PutEnv) (total : Nat) :
    ∀ (l : List Track) (i c : Nat),
      progressOf (orderedLoop env total i c l).1 =
        ((countedSeq env i c l).filter
            (fun p => p.1 % 10 = 0 ∨ p.1 = total)).map
          (fun p => (p.1, total, percentOf p.1 total, some p.2)) := by
  intro l
  induction l with
  | nil => intro i c; simp [orderedLoop, progressOf, countedSeq]
  | cons t ts ih =>
    intro i c
    simp only [orderedLoop]
    rw [progressOf_append, ih, itemSteps_snd]
    simp only [countedSeq]
    by_cases hc : itemCounted env i
    · simp only [hc, if_true, List.filter_cons]
      have hseg : progressOf (itemSteps env total i c t).1 =
          if (c + 1) % 10 = 0 ∨ (c + 1) = total then
            [(c + 1, total, percentOf (c + 1) total, some t.name)]
          else [] := by
        cases h0 : env i 0 with
        | exn m => simp [itemCounted, h0] at hc
        | resp s ra =>
          by_cases hs : s = 429
          · subst hs
            cases h1 : env i 1 with
            | exn m => simp [itemCounted, h0, h1] at hc
            | resp s2 ra2 =>
              simp only [itemSteps, h0, h1, if_true]
              rw [progressOf_append, progressOf_append,
                progressOf_progressSteps]
              simp [progressOf]
          · simp only [itemSteps, h0]
            rw [if_neg hs]
            rw [progressOf_append, progressOf_append, progressOf_progressSteps]
            simp [progressOf]
      rw [hseg]
      by_cases hp : (c + 1) % 10 = 0 ∨ (c + 1) = total
      · simp [hp]
      · simp [hp]
    · simp only [hc, if_false]
      have hseg : progressOf (itemSteps env total i c t).1 = [] := by
        cases h0 : env i 0 with
        | exn m => simp [itemSteps, h0, progressOf]
        | resp s ra =>
          by_cases hs : s = 429
          · subst hs
            cases h1 : env i 1 with
            | exn m => simp [itemSteps, h0, h1, progressOf]
            | resp s2 ra2 => simp [itemCounted, h0, h1] at hc
          · simp [itemCounted, h0, hs] at hc
      rw [hseg]
      simp

/-- The ordered loop emits no complete event (the single complete event of a
run is appended after the loop). -/
theorem orderedLoop_completes (env : PutEnv) (total : Nat) :
    ∀ (l : List Track) (i c : Nat),
      completesOf (orderedLoop env total i c l).1 = [] := by
  intro l
  induction l with
  | nil => intro i c; simp [orderedLoop, completesOf]
  | cons t ts ih =>
    intro i c
    simp only [orderedLoop]
    rw [completesOf_append, ih]
    simp only [List.append_nil]
    cases h0 : env i 0 with
    | exn m => simp [itemSteps, h0, completesOf]
    | resp s ra =>
      by_cases hs : s = 429
      · subst hs
        cases h1 : env i 1 with
        | exn m => simp [itemSteps, h0, h1, completesOf]
        | resp s2 ra2 =>
          simp only [itemSteps, h0, h1, if_true]
          rw [completesOf_append, completesOf_append, completesOf_progressSteps]
          simp [completesOf]
      · simp only [itemSteps, h0]
        rw [if_neg hs]
        rw [completesOf_append, completesOf_append, completesOf_progressSteps]
        simp [completesOf]

/-! ## Lemmas: properties of `callsFrom` and the sort -/

theorem mem_callsFrom (env : PutEnv) :
    ∀ (l : List Track) (i : Nat) (x : Track), x ∈ callsFrom env i l → x ∈ l := by
  intro l
  induction l with
  | nil => intro i x h; simp [callsFrom] at h
  | cons t ts ih =>
    intro i x h
    simp only [callsFrom, List.mem_append] at h
    rcases h with h | h
    · cases hb : isRL429 (env i 0) <;> rw [hb] at h <;> simp at h <;> simp [h]
    · exact List.mem_cons_of_mem t (ih (i + 1) x h)

theorem sublist_callsFrom (env : PutEnv) :
    ∀ (l : List Track) (i : Nat), List.Sublist l (callsFrom env i l) := by
  intro l
  induction l with
  | nil => intro i; simp [callsFrom]
  | cons t ts ih =>
    intro i
    simp only [callsFrom]
    cases hb : isRL429 (env i 0)
    · show List.Sublist (t :: ts) ([t] ++ callsFrom env (i + 1) ts)
      exact List.Sublist.cons₂ t (ih (i + 1))
    · show List.Sublist (t :: ts) ([t, t] ++ callsFrom env (i + 1) ts)
      exact List.Sublist.cons₂ t (List.Sublist.cons t (ih (i + 1)))

theorem callsFrom_length (env : PutEnv) :
    ∀ (l : List Track) (i : Nat), (callsFrom env i l).length ≤ 2 * l.length := by
  intro l
  induction l with
  | nil => intro i; simp [callsFrom]
  | cons t ts ih =>
    intro i
    have h := ih (i + 1)
    simp only [callsFrom, List.length_append, List.length_cons]
    split <;> simp <;> omega

theorem callsFrom_of_no429 (env : PutEnv) (henv : ∀ i, isRL429 (env i 0) = false) :
    ∀ (l : List Track) (i : Nat), callsFrom env i l = l := by
  intro l
  induction l with
  | nil => intro i; simp [callsFrom]
  | cons t ts ih => intro i; simp [callsFrom, henv i, ih (i + 1)]

theorem callsFrom_count_le (env : PutEnv) (x : Track) :
    ∀ (l : List Track) (i : Nat), (callsFrom env i l).count x ≤ 2 * l.count x := by
  intro l
  induction l with
  | nil => intro i; simp [callsFrom]
  | cons t ts ih =>
    intro i
    have h := ih (i + 1)
    simp only [callsFrom, List.count_append, List.count_cons]
    cases hb : isRL429 (env i 0) <;>
      by_cases hbt : (t == x) = true <;>
      simp [hbt, List.count_cons] <;> omega

theorem callsFrom_pairwise (env : PutEnv) (R : Track → Track → Prop)
    (hrefl : ∀ a, R a a) :
    ∀ (l : List Track) (i : Nat), l.Pairwise R → (callsFrom env i l).Pairwise R := by
  intro l
  induction l with
  | nil => intro i _; simp [callsFrom]
  | cons t ts ih =>
    intro i h
    rcases List.pairwise_cons.mp h with ⟨h1, h2⟩
    simp only [callsFrom]
    apply List.pairwise_append.mpr
    refine ⟨?_, ih (i + 1) h2, ?_⟩
    · cases hb : isRL429 (env i 0) <;> simp [hrefl t]
    · intro a ha b hb'
      have hbt : b ∈ ts := mem_callsFrom env ts (i + 1) b hb'
      have hat : a = t := by
        cases hk : isRL429 (env i 0) <;> rw [hk] at ha <;> simp at ha <;> exact ha
      subst hat
      exact h1 b hbt

theorem sortByAddedAt_perm (l : List Track) : List.Perm (sortByAddedAt l) l :=
  List.perm_insertionSort addedLe l

theorem sortByAddedAt_length (l : List Track) :
    (sortByAddedAt l).length = l.length :=
  (sortByAddedAt_perm l).length_eq

theorem sortByAddedAt_pairwise (l : List Track) :
    (sortByAddedAt l).Pairwise fun a b => a.added_at ≤ b.added_at :=
  List.sorted_insertionSort addedLe l

theorem sortByAddedAt_filter_key (l : List Track) (k : String) :
    (sortByAddedAt l).filter (fun t => t.added_at = k) =
      l.filter (fun t => t.added_at = k) := by
  have hpw : (l.filter (fun t => t.added_at = k)).Pairwise addedLe := by
    apply List.pairwise_of_forall_mem_list
    intro a ha b hb
    have ha' := (List.mem_filter.mp ha).2
    have hb' := (List.mem_filter.mp hb).2
    simp only [decide_eq_true_eq] at ha' hb'
    unfold addedLe
    rw [ha', hb']
  have hsub : List.Sublist (l.filter (fun t => t.added_at = k)) (sortByAddedAt l) :=
    List.sublist_insertionSort hpw (List.filter_sublist l)
  have hsub2 : List.Sublist (l.filter (fun t => t.added_at = k))
      ((sortByAddedAt l).filter (fun t => t.added_at = k)) := by
    have h2 := hsub.filter (fun t => decide (t.added_at = k))
    simpa using h2
  have hlen : (l.filter (fun t => t.added_at = k)).length =
      ((sortByAddedAt l).filter (fun t => t.added_at = k)).length :=
    (((sortByAddedAt_perm l).filter (fun t => decide (t.added_at = k))).length_eq).symm
  exact (hsub2.eq_of_length hlen).symm

/-! ## Lemmas: segments of the ordered loop -/

theorem orderedSegs_length (env : PutEnv) (total : Nat) :
    ∀ (l : List Track) (i c : Nat), (orderedSegs env total i c l).length = l.length := by
  intro l
  induction l with
  | nil => intro i c; simp [orderedSegs]
  | cons t ts ih => intro i c; simp [orderedSegs, ih]

theorem orderedLoop_flatten (env : PutEnv) (total : Nat) :
    ∀ (l : List Track) (i c : Nat),
      (orderedLoop env total i c l).1 = (orderedSegs env total i c l).flatten := by
  intro l
  induction l with
  | nil => intro i c; simp [orderedLoop, orderedSegs]
  | cons t ts ih => intro i c; simp [orderedLoop, orderedSegs, ih]

theorem orderedSegs_get (env : PutEnv) (total : Nat) :
    ∀ (l : List Track) (i c j : Nat) (h : j < (orderedSegs env total i c l).length)
      (h2 : j < l.length),
      ∃ cj, (orderedSegs env total i c l).get ⟨j, h⟩ =
        (itemSteps env total (i + j) cj (l.get ⟨j, h2⟩)).1 := by
  intro l
  induction l with
  | nil => intro i c j h h2; exact absurd h2 (by simp)
  | cons t ts ih =>
    intro i c j h h2
    cases j with
    | zero => exact ⟨c, by simp [orderedSegs]⟩
    | succ j =>
      have h' : j < (orderedSegs env total (i + 1) (itemSteps env total i c t).2 ts).length := by
        simpa [orderedSegs] using h
      have h2' : j < ts.length := by simpa using h2
      obtain ⟨cj, hcj⟩ := ih (i + 1) (itemSteps env total i c t).2 j h' h2'
      refine ⟨cj, ?_⟩
      have hadd : i + 1 + j = i + (j + 1) := by omega
      rw [hadd] at hcj
      simpa [orderedSegs] using hcj

/-! ## Lemmas: single-item segments -/

theorem putsOf_itemSteps (env : PutEnv) (total i c : Nat) (t : Track) :
    putsOf (itemSteps env total i c t).1 =
      if isRL429 (env i 0) then [t, t] else [t] := by
  have h := orderedLoop_puts env total [t] i c
  simpa [orderedLoop, callsFrom] using h

theorem errorsOf_itemSteps (env : PutEnv) (total i c : Nat) (t : Track) :
    errorsOf (itemSteps env total i c t).1 =
      match itemErrMsg env i with
      | some m => [(m, t.name)]
      | none => [] := by
  have h := orderedLoop_errors env total [t] i c
  simp only [orderedLoop, errsFrom, List.append_nil] at h
  exact h

theorem rlOf_itemSteps (env : PutEnv) (total i c : Nat) (t : Track) :
    rlOf (itemSteps env total i c t).1 =
      match env i 0 with
      | .resp s ra => if s = 429 then [ra.getD 30] else []
      | .exn _ => [] := by
  have h := orderedLoop_rl env total [t] i c
  simp only [orderedLoop, rlSeq, List.append_nil] at h
  exact h

theorem itemSteps_429_take4 (env : PutEnv) (total i c : Nat) (t : Track)
    (ra : Option Nat) (h : env i 0 = .resp 429 ra) :
    ((itemSteps env total i c t).1).take 4 =
      [.put t, .emit (.rateLimit (ra.getD 30)), .sleep (ra.getD 30 * 1000),
       .put t] := by
  cases h1 : env i 1 with
  | exn m => simp [itemSteps, h, h1]
  | resp s2 ra2 =>
    by_cases hp : (c + 1) % 10 = 0 ∨ (c + 1) = total <;>
      simp [itemSteps, h, h1, progressSteps, hp]

theorem itemSteps_429_exn (env : PutEnv) (total i c : Nat) (t : Track)
    (ra : Option Nat) (m : String) (h : env i 0 = .resp 429 ra)
    (h1 : env i 1 = .exn m) :
    (itemSteps env total i c t).1 =
      [.put t, .emit (.rateLimit (ra.getD 30)), .sleep (ra.getD 30 * 1000),
       .put t, .emit (.error m t.name), .sleep 150] := by
  simp [itemSteps, h, h1]

/-! ## Lemmas: counted items -/

theorem itemCounted_iff_errMsg (env : PutEnv) (i : Nat) :
    itemCounted env i = true ↔ itemErrMsg env i = none := by
  unfold itemCounted itemErrMsg
  cases h0 : env i 0 with
  | exn m => simp
  | resp s ra =>
    by_cases hs : s = 429
    · subst hs
      simp only [if_pos rfl]
      cases h1 : env i 1 <;> simp
    · simp [hs]

theorem countedSeq_fst_ge (env : PutEnv) :
    ∀ (l : List Track) (i c : Nat) (q : Nat × String),
      q ∈ countedSeq env i c l → c + 1 ≤ q.1 := by
  intro l
  induction l with
  | nil => intro i c q h; simp [countedSeq] at h
  | cons t ts ih =>
    intro i c q h
    simp only [countedSeq] at h
    by_cases hb : itemCounted env i = true
    · rw [if_pos hb] at h
      rcases List.mem_cons.mp h with h | h
      · subst h; simp
      · have := ih (i + 1) (c + 1) q h
        omega
    · rw [if_neg hb] at h
      have := ih (i + 1) c q h
      omega

theorem countedFrom_add_errs (env : PutEnv) :
    ∀ (l : List Track) (i : Nat),
      countedFrom env i l + (errsFrom env i l).length = l.length := by
  intro l
  induction l with
  | nil => intro i; simp [countedFrom, errsFrom]
  | cons t ts ih =>
    intro i
    have h := ih (i + 1)
    simp only [countedFrom, errsFrom, List.length_append, List.length_cons]
    by_cases hb : itemCounted env i = true
    · have hn : itemErrMsg env i = none := (itemCounted_iff_errMsg env i).mp hb
      simp only [hb, if_true, hn]
      simp only [List.length_nil]
      omega
    · rcases ho : itemErrMsg env i with _ | m
      · exact absurd ((itemCounted_iff_errMsg env i).mpr ho) hb
      · have hb' : itemCounted env i = false := by
          cases hcb : itemCounted env i
          · rfl
          · exact absurd hcb hb
        simp only [hb', Bool.false_eq_true, if_false, reduceIte, ho,
          List.length_cons, List.length_nil]
        omega

/-! ## Lemmas: whole-trace projections of a run -/

theorem transferTrace_ordered (tracks : List Track) (env : PutEnv) (benv : BatchEnv) :
    transferTrace tracks true env benv =
      (orderedLoop env tracks.length 0 0 (sortByAddedAt tracks)).1 ++
        [.emit (.complete (countedFrom env 0 (sortByAddedAt tracks)) tracks.length)] := by
  simp only [transferTrace, transfer_tracks, pyLen, pySorted, if_true]
  rw [orderedLoop_snd]
  simp

theorem transferTrace_puts (tracks : List Track) (env : PutEnv) (benv : BatchEnv) :
    putsOf (transferTrace tracks true env benv) =
      callsFrom env 0 (sortByAddedAt tracks) := by
  rw [transferTrace_ordered, putsOf_append, orderedLoop_puts]
  simp [putsOf]

theorem transferTrace_errors (tracks : List Track) (env : PutEnv) (benv : BatchEnv) :
    errorsOf (transferTrace tracks true env benv) =
      errsFrom env 0 (sortByAddedAt tracks) := by
  rw [transferTrace_ordered, errorsOf_append, orderedLoop_errors]
  simp [errorsOf]

theorem transferTrace_rl (tracks : List Track) (env : PutEnv) (benv : BatchEnv) :
    rlOf (transferTrace tracks true env benv) =
      rlSeq env 0 (sortByAddedAt tracks) := by
  rw [transferTrace_ordered, rlOf_append, orderedLoop_rl]
  simp [rlOf]

theorem transferTrace_progress (tracks : List Track) (env : PutEnv) (benv : BatchEnv) :
    progressOf (transferTrace tracks true env benv) =
      ((countedSeq env 0 0 (sortByAddedAt tracks)).filter
          (fun p => p.1 % 10 = 0 ∨ p.1 = tracks.length)).map
        (fun p => (p.1, tracks.length, percentOf p.1 tracks.length, some p.2)) := by
  rw [transferTrace_ordered, progressOf_append, orderedLoop_progress]
  simp [progressOf]

theorem transferTrace_completes (tracks : List Track) (env : PutEnv) (benv : BatchEnv) :
    completesOf (transferTrace tracks true env benv) =
      [(countedFrom env 0 (sortByAddedAt tracks), tracks.length)] := by
  rw [transferTrace_ordered, completesOf_append, orderedLoop_completes]
  simp [completesOf]

/-! ## Lemmas: batch mode -/

theorem batchLoop_state (benv : BatchEnv) (total : Nat) :
    ∀ (fuel i c : Nat) (xs : List Track),
      (batchLoop benv total fuel i c xs).2.2 = xs := by
  intro fuel
  induction fuel with
  | zero => intro i c xs; simp [batchLoop]
  | succ fuel ih =>
    intro i c xs
    simp only [batchLoop]
    by_cases hi : i < total
    · rw [if_pos hi]
      cases hb : benv i <;> simp [pySlice, ih]
    · rw [if_neg hi]

theorem batchLoop_progress_mem (benv : BatchEnv) (total : Nat) :
    ∀ (fuel i c : Nat) (xs : List Track), total ≤ xs.length →
      ∀ (a b p : Nat) (n : Option String),
        Step.emit (.progress a b p n) ∈ (batchLoop benv total fuel i c xs).1 →
        b = total ∧ 1 ≤ a := by
  intro fuel
  induction fuel with
  | zero => intro i c xs _ a b p n h; simp [batchLoop] at h
  | succ fuel ih =>
    intro i c xs hx a b p n h
    simp only [batchLoop] at h
    by_cases hi : i < total
    · rw [if_pos hi] at h
      cases hb : benv i <;> rw [hb] at h <;>
        simp only [List.cons_append, List.nil_append, List.mem_cons,
          List.mem_append] at h
      · rcases h with h | h | h | h
        · exact absurd h (by simp)
        · have hbatch : 1 ≤ ((pySlice xs i (i + 50)).1).length := by
            have hix : i < xs.length := lt_of_lt_of_le hi hx
            simp only [pySlice, List.length_take, List.length_drop]
            omega
          have h1 := h
          simp only [Step.emit.injEq, Event.progress.injEq] at h1
          refine ⟨h1.2.1, ?_⟩
          rw [h1.1]
          omega
        · exact absurd h (by simp)
        · exact ih (i + 50) _ xs hx a b p n
            (by simpa [pySlice] using h)
      · rcases h with h | h | h | h
        · exact absurd h (by simp)
        · exact absurd h (by simp)
        · exact absurd h (by simp)
        · exact ih (i + 50) _ xs hx a b p n (by simpa [pySlice] using h)
    · rw [if_neg hi] at h
      simp at h

/-- Any progress event of an ordered-mode trace has a positive transferred
count and carries `total = tracks.length`. -/
theorem ordered_progress_mem_bounds (tracks : List Track) (env : PutEnv)
    (benv : BatchEnv) (a b p : Nat) (n : Option String)
    (h : Step.emit (.progress a b p n) ∈ transferTrace tracks true env benv) :
    1 ≤ a ∧ b = tracks.length := by
  have hmem : (a, b, p, n) ∈ progressOf (transferTrace tracks true env benv) :=
    List.mem_filterMap.mpr ⟨_, h, rfl⟩
  rw [transferTrace_progress] at hmem
  rcases List.mem_map.mp hmem with ⟨q, hq, heq⟩
  have hq' := (List.mem_filter.mp hq).1
  have hge := countedSeq_fst_ge env (sortByAddedAt tracks) 0 0 q hq'
  simp only [Prod.mk.injEq] at heq
  obtain ⟨ha, hb, -⟩ := heq
  subst ha
  subst hb
  exact ⟨by omega, rfl⟩

/-! ## Claims about the transporter -/

/-- C1: In ordered mode, for every input track list, `transfer_tracks` issues
its single-item insertion calls in ascending order of the records'
`added_at` keys, using a stable sort.  Conjuncts: the sorted sequence the
code inserts from is ascending by `added_at`, a permutation of the input,
and stable (records with equal `added_at` keep their original relative
order: filtering on any key value preserves the input's order); the actual
insertion-call sequence of any run is ascending by `added_at`, contains the
sorted records in order, draws only from the input, and — in the absence of
rate limiting — is exactly the stable ascending sort (so e.g. for `added_at`
values [T3, T1, T2] with T1 < T2 < T3 the calls are [T1, T2, T3], as the
witness instantiates). -/
theorem ordered_calls_ascending_stable (tracks : List Track) (env : PutEnv)
    (benv : BatchEnv) :
    List.Pairwise (fun a b : Track => a.added_at ≤ b.added_at)
      (sortByAddedAt tracks) ∧
    List.Perm (sortByAddedAt tracks) tracks ∧
    (∀ k : String, (sortByAddedAt tracks).filter (fun t => t.added_at = k) =
        tracks.filter (fun t => t.added_at = k)) ∧
    List.Pairwise (fun a b : Track => a.added_at ≤ b.added_at)
      (putsOf (transferTrace tracks true env benv)) ∧
    List.Sublist (sortByAddedAt tracks)
      (putsOf (transferTrace tracks true env benv)) ∧
    (∀ x ∈ putsOf (transferTrace tracks true env benv), x ∈ tracks) ∧
    ((∀ i, isRL429 (env i 0) = false) →
      putsOf (transferTrace tracks true env benv) = sortByAddedAt tracks) := by
  refine ⟨sortByAddedAt_pairwise tracks, sortByAddedAt_perm tracks,
    fun k => sortByAddedAt_filter_key tracks k, ?_, ?_, ?_, ?_⟩
  · rw [transferTrace_puts]
    exact callsFrom_pairwise env _ (fun a => le_refl a.added_at) _ 0
      (sortByAddedAt_pairwise tracks)
  · rw [transferTrace_puts]
    exact sublist_callsFrom env _ 0
  · intro x hx
    rw [transferTrace_puts] at hx
    exact (sortByAddedAt_perm tracks).mem_iff.mp (mem_callsFrom env _ 0 x hx)
  · intro henv
    rw [transferTrace_puts]
    exact callsFrom_of_no429 env henv _ 0

/-- C1 witness: for records with `added_at` = [T3, T1, T2] (T1 < T2 < T3) and
no rate limiting, the ordered-mode insertion-call sequence is
[T1, T2, T3]. -/
theorem ordered_calls_ascending_stable_witness :
    putsOf (transferTrace
        [⟨"id3", "C", "2024-01-03T00:00:00Z"⟩,
         ⟨"id1", "A", "2024-01-01T00:00:00Z"⟩,
         ⟨"id2", "B", "2024-01-02T00:00:00Z"⟩] true
        (fun _ _ => .resp 200 none) (fun _ => none)) =
      [⟨"id1", "A", "2024-01-01T00:00:00Z"⟩,
       ⟨"id2", "B", "2024-01-02T00:00:00Z"⟩,
       ⟨"id3", "C", "2024-01-03T00:00:00Z"⟩] := by
  have h := (ordered_calls_ascending_stable
      [⟨"id3", "C", "2024-01-03T00:00:00Z"⟩,
       ⟨"id1", "A", "2024-01-01T00:00:00Z"⟩,
       ⟨"id2", "B", "2024-01-02T00:00:00Z"⟩]
      (fun _ _ => .resp 200 none) (fun _ => none)).2.2.2.2.2.2
  rw [h (fun i => rfl)]
  decide

/-- C2 (amended): in ordered mode, for every item whose insertion attempt
RAISES an exception (the first attempt, or the retry after a 429), the run
emits exactly one `Error{message, track name}` event, does not count the
item, and continues: the error events are exactly those of the raising
items, in order; the run still ends with a `Complete` event whose
transferred count is the number of non-raising items; and
`transferred < total` exactly when some item raised.  (As the counterexample
shows, an insertion answered by a non-429 HTTP error status — e.g. 500 — is
NOT treated as a failure by the code: it is counted as transferred and emits
no error event, so the claim's error path is taken only for raised
exceptions.) -/
theorem ordered_error_path_on_exception (tracks : List Track) (env : PutEnv)
    (benv : BatchEnv) :
    errorsOf (transferTrace tracks true env benv) =
      errsFrom env 0 (sortByAddedAt tracks) ∧
    (transferTrace tracks true env benv).getLast? =
      some (.emit (.complete (countedFrom env 0 (sortByAddedAt tracks))
        tracks.length)) ∧
    countedFrom env 0 (sortByAddedAt tracks) +
        (errsFrom env 0 (sortByAddedAt tracks)).length = tracks.length ∧
    (countedFrom env 0 (sortByAddedAt tracks) < tracks.length ↔
      errsFrom env 0 (sortByAddedAt tracks) ≠ []) := by
  have hsum := countedFrom_add_errs env (sortByAddedAt tracks) 0
  rw [sortByAddedAt_length] at hsum
  refine ⟨transferTrace_errors tracks env benv, ?_, hsum, ?_, ?_⟩
  · rw [transferTrace_ordered]
    exact List.getLast?_concat _
  · intro hlt hnil
    rw [hnil] at hsum
    simp only [List.length_nil, Nat.add_zero] at hsum
    omega
  · intro hne
    have hpos : 0 < (errsFrom env 0 (sortByAddedAt tracks)).length :=
      List.length_pos.mpr hne
    omega

/-- C2 counterexample: a single item whose insertion `PUT` returns HTTP 500 —
an insertion failure that is not a rate limit — produces NO error event and
IS counted as transferred: the run ends with `Complete{transferred: 1,
total: 1}`, contradicting the claim that such an item is reported via
`Error` and excluded from the transferred count. -/
theorem ordered_http_error_counted_counterexample :
    transferTrace [⟨"id1", "Song A", "2024-01-01T00:00:00Z"⟩] true
        (fun _ _ => .resp 500 none) (fun _ => none) =
      [.put ⟨"id1", "Song A", "2024-01-01T00:00:00Z"⟩,
       .emit (.progress 1 1 100 (some "Song A")), .sleep 150,
       .emit (.complete 1 1)] ∧
    errorsOf (transferTrace [⟨"id1", "Song A", "2024-01-01T00:00:00Z"⟩] true
        (fun _ _ => .resp 500 none) (fun _ => none)) = [] ∧
    completesOf (transferTrace [⟨"id1", "Song A", "2024-01-01T00:00:00Z"⟩] true
        (fun _ _ => .resp 500 none) (fun _ => none)) = [(1, 1)] := by
  decide

/-- C3 (amended): in ordered mode, when the first insertion attempt of an
item returns 429, the run emits `RateLimited{retryAfterSeconds}` with the
response's `Retry-After` value (30 if unspecified), sleeps for that many
seconds, and immediately retries the same single-item call exactly once; no
item's insertion call is issued more than twice (and each at least once);
if the retry RAISES, the per-item error path applies (error event, item not
counted); but if the retry merely RETURNS a failing response — another 429,
or any error status — the item is nevertheless counted as transferred, no
error event is emitted, and the second response's status is never examined
(so the per-item error path applies to a failed retry only when it raises,
as the counterexample shows). -/
theorem ordered_rate_limit_single_retry (tracks : List Track) (env : PutEnv)
    (benv : BatchEnv) :
    (putsOf (transferTrace tracks true env benv)).length ≤ 2 * tracks.length ∧
    (∀ x : Track,
      tracks.count x ≤ (putsOf (transferTrace tracks true env benv)).count x ∧
      (putsOf (transferTrace tracks true env benv)).count x ≤
        2 * tracks.count x) ∧
    rlOf (transferTrace tracks true env benv) =
      rlSeq env 0 (sortByAddedAt tracks) ∧
    transferTrace tracks true env benv =
      (orderedSegs env tracks.length 0 0 (sortByAddedAt tracks)).flatten ++
        [.emit (.complete (countedFrom env 0 (sortByAddedAt tracks))
          tracks.length)] ∧
    (∀ j (h : j < (orderedSegs env tracks.length 0 0 (sortByAddedAt tracks)).length)
        (h2 : j < (sortByAddedAt tracks).length) (ra : Option Nat),
      env j 0 = .resp 429 ra →
        (((orderedSegs env tracks.length 0 0 (sortByAddedAt tracks)).get
            ⟨j, h⟩).take 4 =
          [.put ((sortByAddedAt tracks).get ⟨j, h2⟩),
           .emit (.rateLimit (ra.getD 30)),
           .sleep (ra.getD 30 * 1000),
           .put ((sortByAddedAt tracks).get ⟨j, h2⟩)] ∧
        (∀ m, env j 1 = .exn m →
          (orderedSegs env tracks.length 0 0 (sortByAddedAt tracks)).get
              ⟨j, h⟩ =
            [.put ((sortByAddedAt tracks).get ⟨j, h2⟩),
             .emit (.rateLimit (ra.getD 30)),
             .sleep (ra.getD 30 * 1000),
             .put ((sortByAddedAt tracks).get ⟨j, h2⟩),
             .emit (.error m ((sortByAddedAt tracks).get ⟨j, h2⟩).name),
             .sleep 150] ∧
          itemCounted env j = false) ∧
        (∀ s2 ra2, env j 1 = .resp s2 ra2 →
          itemCounted env j = true ∧
          errorsOf ((orderedSegs env tracks.length 0 0
            (sortByAddedAt tracks)).get ⟨j, h⟩) = []))) := by
  refine ⟨?_, ?_, transferTrace_rl tracks env benv, ?_, ?_⟩
  · rw [transferTrace_puts]
    have h := callsFrom_length env (sortByAddedAt tracks) 0
    rwa [sortByAddedAt_length] at h
  · intro x
    rw [transferTrace_puts]
    constructor
    · calc tracks.count x = (sortByAddedAt tracks).count x :=
            ((sortByAddedAt_perm tracks).count_eq x).symm
        _ ≤ (callsFrom env 0 (sortByAddedAt tracks)).count x :=
            (sublist_callsFrom env (sortByAddedAt tracks) 0).count_le x
    · calc (callsFrom env 0 (sortByAddedAt tracks)).count x ≤
            2 * (sortByAddedAt tracks).count x :=
            callsFrom_count_le env x (sortByAddedAt tracks) 0
        _ = 2 * tracks.count x := by
            rw [(sortByAddedAt_perm tracks).count_eq x]
  · rw [transferTrace_ordered, orderedLoop_flatten]
  · intro j h h2 ra hj0
    obtain ⟨cj, hseg⟩ := orderedSegs_get env tracks.length
      (sortByAddedAt tracks) 0 0 j h h2
    rw [Nat.zero_add] at hseg
    refine ⟨?_, ?_, ?_⟩
    · rw [hseg]
      exact itemSteps_429_take4 env tracks.length j cj _ ra hj0
    · intro m hj1
      rw [hseg]
      refine ⟨itemSteps_429_exn env tracks.length j cj _ ra m hj0 hj1, ?_⟩
      simp [itemCounted, hj0, hj1]
    · intro s2 ra2 hj1
      constructor
      · simp [itemCounted, hj0, hj1]
      · rw [hseg, errorsOf_itemSteps]
        simp [itemErrMsg, hj0, hj1]

/-- C3 witness: a run of two items, the first rate-limited once with
`Retry-After: 7` and succeeding on retry, the second unlimited: the trace has
the 429 item `PUT` twice with the `RateLimited{7}` event and the 7-second
sleep between the two calls, four insertion calls never exceed 2 per item,
and the run completes with both items counted. -/
theorem ordered_rate_limit_single_retry_witness :
    (putsOf (transferTrace
        [⟨"id1", "A", "2024-01-01T00:00:00Z"⟩,
         ⟨"id2", "B", "2024-01-02T00:00:00Z"⟩] true
        (fun i a => if i = 0 ∧ a = 0 then .resp 429 (some 7) else .resp 200 none)
        (fun _ => none))).length ≤ 4 ∧
    rlOf (transferTrace
        [⟨"id1", "A", "2024-01-01T00:00:00Z"⟩,
         ⟨"id2", "B", "2024-01-02T00:00:00Z"⟩] true
        (fun i a => if i = 0 ∧ a = 0 then .resp 429 (some 7) else .resp 200 none)
        (fun _ => none)) = [7] ∧
    ((orderedSegs (fun i a => if i = 0 ∧ a = 0 then .resp 429 (some 7)
          else .resp 200 none) 2 0 0
        (sortByAddedAt
          [⟨"id1", "A", "2024-01-01T00:00:00Z"⟩,
           ⟨"id2", "B", "2024-01-02T00:00:00Z"⟩])).get
      ⟨0, by decide⟩).take 4 =
      [.put ⟨"id1", "A", "2024-01-01T00:00:00Z"⟩,
       .emit (.rateLimit 7), .sleep 7000,
       .put ⟨"id1", "A", "2024-01-01T00:00:00Z"⟩] := by
  have h := ordered_rate_limit_single_retry
      [⟨"id1", "A", "2024-01-01T00:00:00Z"⟩,
       ⟨"id2", "B", "2024-01-02T00:00:00Z"⟩]
      (fun i a => if i = 0 ∧ a = 0 then .resp 429 (some 7) else .resp 200 none)
      (fun _ => none)
  refine ⟨?_, h.2.2.1.trans (by decide), ?_⟩
  · exact le_trans h.1 (by decide)
  · have h4 := (h.2.2.2.2 0 (by decide) (by decide) (some 7) (by decide)).1
    exact h4.trans (by decide)

/-- C3 counterexample: a single item whose first attempt returns 429
(`Retry-After: 5`) and whose single retry ALSO returns 429: the per-item
error path does NOT apply — no error event is emitted, only the first
rate-limit event appears, and the item is counted as transferred
(`Complete{1, 1}`), contradicting "if the retry also fails the per-item
error path applies". -/
theorem ordered_second_rate_limit_counted_counterexample :
    transferTrace [⟨"id1", "Song A", "2024-01-01T00:00:00Z"⟩] true
        (fun _ a => if a = 0 then .resp 429 (some 5) else .resp 429 (some 7))
        (fun _ => none) =
      [.put ⟨"id1", "Song A", "2024-01-01T00:00:00Z"⟩,
       .emit (.rateLimit 5), .sleep 5000,
       .put ⟨"id1", "Song A", "2024-01-01T00:00:00Z"⟩,
       .emit (.progress 1 1 100 (some "Song A")), .sleep 150,
       .emit (.complete 1 1)] ∧
    errorsOf (transferTrace [⟨"id1", "Song A", "2024-01-01T00:00:00Z"⟩] true
        (fun _ a => if a = 0 then .resp 429 (some 5) else .resp 429 (some 7))
        (fun _ => none)) = [] := by
  decide

/-- C4 (amended): in ordered mode a Progress event is emitted exactly when
the running transferred count is a multiple of 10 or equals the final total
(not on every success), carrying the current track name and
`percent = int((transferred / total) * 100)` evaluated in IEEE-754 binary64
arithmetic (`percentOf`); because `transferred / total` is rounded to the
nearest double before the multiplication, this value can fall one below the
exact `⌊transferred·100/total⌋` (57 instead of 58 at 290 of 500, see the
counterexample), so the claim's exact-floor formula does not hold of the
program.  The run ends with the single Complete event; and a run of 95 items
that all succeed emits exactly 10 Progress events and exactly one Complete
event. -/
theorem ordered_progress_every_tenth (tracks : List Track) (env : PutEnv)
    (benv : BatchEnv) :
    progressOf (transferTrace tracks true env benv) =
      ((countedSeq env 0 0 (sortByAddedAt tracks)).filter
          (fun p => p.1 % 10 = 0 ∨ p.1 = tracks.length)).map
        (fun p => (p.1, tracks.length, percentOf p.1 tracks.length,
          some p.2)) ∧
    completesOf (transferTrace tracks true env benv) =
      [(countedFrom env 0 (sortByAddedAt tracks), tracks.length)] ∧
    (transferTrace tracks true env benv).getLast? =
      some (.emit (.complete (countedFrom env 0 (sortByAddedAt tracks))
        tracks.length)) ∧
    (progressOf (transferTrace (List.replicate 95 ⟨"i", "n", "d"⟩) true
        (fun _ _ => .resp 200 none) (fun _ => none))).length = 10 ∧
    completesOf (transferTrace (List.replicate 95 ⟨"i", "n", "d"⟩) true
        (fun _ _ => .resp 200 none) (fun _ => none)) = [(95, 95)] := by
  refine ⟨transferTrace_progress tracks env benv,
    transferTrace_completes tracks env benv, ?_, by decide, by decide⟩
  rw [transferTrace_ordered]
  exact List.getLast?_concat _

set_option maxRecDepth 40000 in
set_option maxHeartbeats 2000000 in
/-- C4 counterexample: a run of 500 items that all succeed emits its 29th
Progress event at `transferred = 290` (a multiple of 10, hence emitted)
carrying percent 57 — the value of `int((290 / 500) * 100)` in binary64
floating point, where the double nearest `290/500` lies just below `0.58` —
whereas the claim's formula `⌊transferred·100/total⌋` gives
`⌊290·100/500⌋ = 58`. -/
theorem ordered_percent_not_exact_floor_counterexample :
    (progressOf (transferTrace (List.replicate 500 ⟨"i", "n", "d"⟩) true
        (fun _ _ => .resp 200 none) (fun _ => none)))[28]? =
      some (290, 500, 57, some "n") ∧
    290 * 100 / 500 = 58 := by
  decide

/-- C8: `transfer_tracks` performs no deduplication: every record of the
snapshot receives at least one insertion call in every ordered run
(counted with multiplicity — a record occurring twice is inserted twice),
and in the absence of rate limiting the ordered insertion-call sequence is
exactly the sorted snapshot, one call per record; hence running the
transporter twice on the same snapshot issues, for every record, twice as
many insertion calls as the snapshot holds copies of it, independent of what
the destination already contains (the model has no destination state that
could suppress a call). -/
theorem transfer_no_dedup (tracks : List Track) (env : PutEnv)
    (benv : BatchEnv) :
    (∀ x : Track,
      tracks.count x ≤ (putsOf (transferTrace tracks true env benv)).count x) ∧
    ((∀ i, isRL429 (env i 0) = false) →
      putsOf (transferTrace tracks true env benv) = sortByAddedAt tracks ∧
      (putsOf (transferTrace tracks true env benv)).length = tracks.length ∧
      (∀ x : Track,
        (putsOf (transferTrace tracks true env benv) ++
            putsOf (transferTrace tracks true env benv)).count x =
          2 * tracks.count x)) := by
  constructor
  · intro x
    rw [transferTrace_puts]
    calc tracks.count x = (sortByAddedAt tracks).count x :=
          ((sortByAddedAt_perm tracks).count_eq x).symm
      _ ≤ (callsFrom env 0 (sortByAddedAt tracks)).count x :=
          (sublist_callsFrom env (sortByAddedAt tracks) 0).count_le x
  · intro henv
    have hputs : putsOf (transferTrace tracks true env benv) =
        sortByAddedAt tracks := by
      rw [transferTrace_puts]
      exact callsFrom_of_no429 env henv _ 0
    refine ⟨hputs, ?_, ?_⟩
    · rw [hputs, sortByAddedAt_length]
    · intro x
      rw [hputs, List.count_append, (sortByAddedAt_perm tracks).count_eq x]
      omega

/-- C8 witness: a snapshot holding the same record twice, transferred twice
with no rate limiting: across the two runs the record receives 4 insertion
calls — nothing is deduplicated. -/
theorem transfer_no_dedup_witness :
    (putsOf (transferTrace
          [⟨"id1", "A", "2024-01-01T00:00:00Z"⟩,
           ⟨"id1", "A", "2024-01-01T00:00:00Z"⟩] true
          (fun _ _ => .resp 200 none) (fun _ => none)) ++
        putsOf (transferTrace
          [⟨"id1", "A", "2024-01-01T00:00:00Z"⟩,
           ⟨"id1", "A", "2024-01-01T00:00:00Z"⟩] true
          (fun _ _ => .resp 200 none) (fun _ => none))).count
      ⟨"id1", "A", "2024-01-01T00:00:00Z"⟩ = 4 := by
  have h := ((transfer_no_dedup
      [⟨"id1", "A", "2024-01-01T00:00:00Z"⟩,
       ⟨"id1", "A", "2024-01-01T00:00:00Z"⟩]
      (fun _ _ => .resp 200 none) (fun _ => none)).2 (fun i => rfl)).2.2
      ⟨"id1", "A", "2024-01-01T00:00:00Z"⟩
  rw [h]
  decide

/-- C9: for the empty track list, `transfer_tracks` in either mode emits
exactly one event, `Complete{transferred: 0, total: 0}`, and in particular
never emits a Progress event (so the percent expression is never evaluated);
and in every run, in either mode, any Progress event has
`transferred ≥ 1` and `total = len(tracks) ≥ 1`, so the division
`transferred / total` is only ever performed with a positive
denominator. -/
theorem transfer_empty_complete_and_percent_guard (env : PutEnv)
    (benv : BatchEnv) :
    transferTrace [] true env benv = [.emit (.complete 0 0)] ∧
    transferTrace [] false env benv = [.emit (.complete 0 0)] ∧
    (∀ (tracks : List Track) (po : Bool) (env2 : PutEnv) (benv2 : BatchEnv)
        (a b p : Nat) (n : Option String),
      Step.emit (.progress a b p n) ∈ transferTrace tracks po env2 benv2 →
      1 ≤ a ∧ 1 ≤ b ∧ b = tracks.length) := by
  refine ⟨rfl, rfl, ?_⟩
  intro tracks po env2 benv2 a b p n h
  cases po
  · -- batch mode
    have hb : Step.emit (.progress a b p n) ∈
        (batchLoop benv2 tracks.length (tracks.length + 1) 0 0 tracks).1 := by
      simp only [transferTrace, transfer_tracks, pyLen, Bool.false_eq_true,
        if_false, reduceIte] at h
      rcases List.mem_append.mp h with h1 | h1
      · exact h1
      · simp at h1
    have := batchLoop_progress_mem benv2 tracks.length (tracks.length + 1) 0 0
      tracks (le_refl _) a b p n hb
    refine ⟨this.2, ?_, this.1⟩
    rw [this.1]
    by_contra hzero
    have h0 : tracks.length = 0 := by omega
    have hnil : tracks = [] := List.length_eq_zero.mp h0
    subst hnil
    simp [batchLoop] at hb
  · have := ordered_progress_mem_bounds tracks env2 benv2 a b p n h
    refine ⟨this.1, ?_, this.2⟩
    rw [this.2]
    have hge := this.1
    -- a ≤ total since a is a running count bounded by the item count; but it
    -- suffices that some item was counted, so the list is nonempty
    by_contra hzero
    have : tracks.length = 0 := by omega
    have hnil : tracks = [] := List.length_eq_zero.mp this
    subst hnil
    simp [transferTrace, transfer_tracks, pyLen, pySorted, sortByAddedAt,
      List.insertionSort, orderedLoop] at h

/-- C9 witness: a concrete one-item successful run in ordered mode emits the
Progress event `(1, 1, 100)` — instantiating the guard: its transferred
count is ≥ 1 and its total is `len(tracks) = 1 ≥ 1`. -/
theorem transfer_empty_complete_and_percent_guard_witness :
    1 ≤ 1 ∧ 1 ≤ 1 ∧ 1 = ([⟨"id1", "Song A", "2024-01-01T00:00:00Z"⟩] :
      List Track).length := by
  have h := (transfer_empty_complete_and_percent_guard
      (fun _ _ => .resp 200 none) (fun _ => none)).2.2
      [⟨"id1", "Song A", "2024-01-01T00:00:00Z"⟩] true
      (fun _ _ => .resp 200 none) (fun _ => none) 1 1 100 (some "Song A")
      (by decide)
  exact h

/-- C10: `transfer_tracks` never mutates its input: in either mode, after the
generator is fully consumed the caller's track list is exactly its initial
value (the ordered-mode sort builds a fresh `sorted(...)` copy and batch mode
only reads slices), so the same snapshot value re-produces the same trace
when reused after a run. -/
theorem transfer_input_unchanged (tracks : List Track) (po : Bool)
    (env : PutEnv) (benv : BatchEnv) :
    (transfer_tracks tracks po env benv).2 = tracks ∧
    transferTrace (transfer_tracks tracks po env benv).2 po env benv =
      transferTrace tracks po env benv := by
  have h : (transfer_tracks tracks po env benv).2 = tracks := by
    cases po
    · simp only [transfer_tracks, pyLen, Bool.false_eq_true, if_false,
        reduceIte]
      exact batchLoop_state benv tracks.length (tracks.length + 1) 0 0 tracks
    · rfl
  exact ⟨h, by rw [h]⟩

/-! ## Lemmas: extractor basics -/

theorem ExOutcome.steps_prepend (s : List ExStep) (o : ExOutcome) :
    (ExOutcome.prepend s o).steps = s ++ o.steps := by
  cases o <;> rfl

theorem fetchOffsets_append (a b : List ExStep) :
    fetchOffsets (a ++ b) = fetchOffsets a ++ fetchOffsets b := by
  simp [fetchOffsets, List.filterMap_append]

theorem totalsOf_append (a b : List ExStep) :
    totalsOf (a ++ b) = totalsOf a ++ totalsOf b := by
  simp [totalsOf, List.filterMap_append]

theorem exProgressOf_append (a b : List ExStep) :
    exProgressOf (a ++ b) = exProgressOf a ++ exProgressOf b := by
  simp [exProgressOf, List.filterMap_append]

theorem trackRecsOf_append (a b : List ExStep) :
    trackRecsOf (a ++ b) = trackRecsOf a ++ trackRecsOf b := by
  simp [trackRecsOf, List.filterMap_append]

theorem exRlOf_append (a b : List ExStep) :
    exRlOf (a ++ b) = exRlOf a ++ exRlOf b := by
  simp [exRlOf, List.filterMap_append]

theorem fetchOffsets_cons (s : ExStep) (l : List ExStep) :
    fetchOffsets (s :: l) =
      (match s with
       | .fetch o => [o]
       | _ => []) ++ fetchOffsets l := by
  cases s <;> simp [fetchOffsets]

theorem totalsOf_cons (s : ExStep) (l : List ExStep) :
    totalsOf (s :: l) =
      (match s with
       | .emit (.total n) => [n]
       | _ => []) ++ totalsOf l := by
  cases s with
  | emit e => cases e <;> simp [totalsOf]
  | fetch o => simp [totalsOf]
  | sleep n => simp [totalsOf]

theorem exProgressOf_cons (s : ExStep) (l : List ExStep) :
    exProgressOf (s :: l) =
      (match s with
       | .emit (.progress f n) => [(f, n)]
       | _ => []) ++ exProgressOf l := by
  cases s with
  | emit e => cases e <;> simp [exProgressOf]
  | fetch o => simp [exProgressOf]
  | sleep n => simp [exProgressOf]

theorem trackRecsOf_cons (s : ExStep) (l : List ExStep) :
    trackRecsOf (s :: l) =
      (match s with
       | .emit (.track r) => [r]
       | _ => []) ++ trackRecsOf l := by
  cases s with
  | emit e => cases e <;> simp [trackRecsOf]
  | fetch o => simp [trackRecsOf]
  | sleep n => simp [trackRecsOf]

theorem exRlOf_cons (s : ExStep) (l : List ExStep) :
    exRlOf (s :: l) =
      (match s with
       | .emit (.rateLimit r) => [r]
       | _ => []) ++ exRlOf l := by
  cases s with
  | emit e => cases e <;> simp [exRlOf]
  | fetch o => simp [exRlOf]
  | sleep n => simp [exRlOf]

theorem fetchOffsets_nil : fetchOffsets ([] : List ExStep) = [] := rfl

theorem totalsOf_nil : totalsOf ([] : List ExStep) = [] := rfl

theorem exProgressOf_nil : exProgressOf ([] : List ExStep) = [] := rfl

theorem trackRecsOf_nil : trackRecsOf ([] : List ExStep) = [] := rfl

theorem exRlOf_nil : exRlOf ([] : List ExStep) = [] := rfl

theorem mem_itemEvents (items : List SavedItem) (s : ExStep)
    (h : s ∈ itemEvents items) : ∃ r, s = .emit (.track r) := by
  rcases List.mem_filterMap.mp h with ⟨it, _, hf⟩
  cases ht : it.track with
  | none => rw [ht] at hf; simp at hf
  | some t =>
    rw [ht] at hf
    simp at hf
    exact ⟨_, hf.symm⟩

theorem fetchOffsets_itemEvents (items : List SavedItem) :
    fetchOffsets (itemEvents items) = [] := by
  rw [fetchOffsets, List.filterMap_eq_nil]
  intro s hs
  obtain ⟨r, rfl⟩ := mem_itemEvents items s hs
  rfl

theorem totalsOf_itemEvents (items : List SavedItem) :
    totalsOf (itemEvents items) = [] := by
  rw [totalsOf, List.filterMap_eq_nil]
  intro s hs
  obtain ⟨r, rfl⟩ := mem_itemEvents items s hs
  rfl

theorem exProgressOf_itemEvents (items : List SavedItem) :
    exProgressOf (itemEvents items) = [] := by
  rw [exProgressOf, List.filterMap_eq_nil]
  intro s hs
  obtain ⟨r, rfl⟩ := mem_itemEvents items s hs
  rfl

theorem exRlOf_itemEvents (items : List SavedItem) :
    exRlOf (itemEvents items) = [] := by
  rw [exRlOf, List.filterMap_eq_nil]
  intro s hs
  obtain ⟨r, rfl⟩ := mem_itemEvents items s hs
  rfl

theorem trackRecsOf_itemEvents (items : List SavedItem) :
    trackRecsOf (itemEvents items) =
      items.filterMap
        (fun it => it.track.map fun t => recordOfItem t it.added_at) := by
  induction items with
  | nil => rfl
  | cons it ts ih =>
    cases ht : it.track with
    | none =>
      simp only [itemEvents, List.filterMap_cons, ht] at ih ⊢
      simpa using ih
    | some t =>
      simp only [itemEvents, List.filterMap_cons, ht] at ih ⊢
      simp only [Option.map, trackRecsOf_cons]
      simpa using ih

/-! ## Lemmas: range-shift helpers -/

theorem countP_range_shift (f : Nat → Bool) (k n : Nat) :
    ((List.range (n + 1)).countP fun m => f (k + m)) =
      (if f k then 1 else 0) +
        ((List.range n).countP fun m => f (k + 1 + m)) := by
  rw [List.range_succ_eq_map, List.countP_cons, List.countP_map]
  have hfun : ((fun m => f (k + m)) ∘ Nat.succ) = fun m => f (k + 1 + m) := by
    funext m
    simp only [Function.comp]
    congr 1
    omega
  rw [hfun]
  simp [Nat.add_comm]

theorem filterMap_range_shift {β : Type} (f : Nat → Option β) (k n : Nat) :
    ((List.range (n + 1)).filterMap fun m => f (k + m)) =
      (f k).toList ++ ((List.range n).filterMap fun m => f (k + 1 + m)) := by
  rw [List.range_succ_eq_map, List.filterMap_cons, List.filterMap_map]
  have hfun : ((fun m => f (k + m)) ∘ Nat.succ) = fun m => f (k + 1 + m) := by
    funext m
    simp only [Function.comp]
    congr 1
    omega
  rw [hfun]
  cases hf : f (k + 0) <;> rw [Nat.add_zero] at hf <;> simp [hf]

theorem flatMap_range_shift {β : Type} (f : Nat → List β) (k n : Nat) :
    ((List.range (n + 1)).flatMap fun m => f (k + m)) =
      f k ++ ((List.range n).flatMap fun m => f (k + 1 + m)) := by
  rw [List.range_succ_eq_map]
  rw [List.flatMap_cons, List.flatMap_map]
  have hfun : (fun a => f (k + a.succ)) = fun m => f (k + 1 + m) := by
    funext m
    congr 1
    omega
  rw [hfun, Nat.add_zero]

/-! ## Lemmas: extractor structure -/

theorem extract_steps_flatten (api : ApiEnv) :
    ∀ (fuel k off : Nat) (tot? : Option Nat),
      (extractLoop api fuel k off tot?).steps =
        (exSegs api fuel k off tot?).flatten := by
  intro fuel
  induction fuel with
  | zero => intro k off tot?; rfl
  | succ fuel ih =>
    intro k off tot?
    simp only [extractLoop, exSegs]
    cases hk : api k with
    | raise429 ra =>
      rw [ExOutcome.steps_prepend]
      simp [ih]
    | raiseOther st m => rfl
    | ok page =>
      by_cases he : page.items.isEmpty
      · cases tot? <;> simp [he, ExOutcome.steps]
      · cases tot? <;>
          (dsimp only; rw [if_neg he, if_neg he, ExOutcome.steps_prepend, ih];
            simp)

theorem exSegs_get_zero_head (api : ApiEnv) :
    ∀ (fuel k off : Nat) (tot? : Option Nat)
      (h : 0 < (exSegs api fuel k off tot?).length),
      ((exSegs api fuel k off tot?).get ⟨0, h⟩).head? = some (.fetch off) := by
  intro fuel
  cases fuel with
  | zero => intro k off tot? h; simp [exSegs] at h
  | succ fuel =>
    intro k off tot?
    simp only [exSegs]
    cases hk : api k with
    | raise429 ra => intro h; simp
    | raiseOther st m => intro h; simp
    | ok page =>
      by_cases he : page.items.isEmpty
      · cases tot? <;> (intro h; simp [he])
      · cases tot? <;> (intro h; simp [he])

/-- Offset law of the pagination loop: the `j`-th fetch of the run started at
call index `k` and offset `off` is issued at
`off + 50 · #{earlier calls that returned a non-empty page}`. -/
theorem extract_fetch_law (api : ApiEnv) :
    ∀ (fuel k off : Nat) (tot? : Option Nat) (j : Nat),
      j < (fetchOffsets (extractLoop api fuel k off tot?).steps).length →
      (fetchOffsets (extractLoop api fuel k off tot?).steps)[j]? =
        some (off + 50 *
          ((List.range j).countP fun m => isNonemptyOk (api (k + m)))) := by
  intro fuel
  induction fuel with
  | zero =>
    intro k off tot? j h
    simp [extractLoop, ExOutcome.steps, fetchOffsets] at h
  | succ fuel ih =>
    intro k off tot? j
    simp only [extractLoop]
    cases hk : api k with
    | raise429 ra =>
      intro h
      rw [ExOutcome.steps_prepend] at h ⊢
      simp only [List.cons_append, List.nil_append, fetchOffsets_cons] at h ⊢
      cases j with
      | zero => simp
      | succ j =>
        simp only [List.getElem?_cons_succ]
        rw [countP_range_shift (fun x => isNonemptyOk (api x)) k j]
        have h' : j < (fetchOffsets
            (extractLoop api fuel (k + 1) off tot?).steps).length := by
          simpa using h
        rw [ih (k + 1) off tot? j h']
        simp [hk, isNonemptyOk]
    | raiseOther st m =>
      intro h
      simp only [ExOutcome.steps, fetchOffsets_cons] at h ⊢
      cases j with
      | zero => simp
      | succ j => simp [fetchOffsets] at h
    | ok page =>
      dsimp only
      by_cases he : page.items.isEmpty
      · rw [if_pos he]
        intro h
        simp only [ExOutcome.steps, List.cons_append, List.nil_append,
          fetchOffsets_cons, fetchOffsets_append] at h ⊢
        cases j with
        | zero => cases tot? <;> simp [fetchOffsets]
        | succ j =>
          cases tot? <;> simp [fetchOffsets, totalsOf] at h
      · rw [if_neg he]
        intro h
        rw [ExOutcome.steps_prepend] at h ⊢
        simp only [List.append_assoc, List.cons_append, List.nil_append,
          fetchOffsets_cons, fetchOffsets_append, fetchOffsets_itemEvents,
          fetchOffsets_nil] at h ⊢
        cases j with
        | zero => cases tot? <;> simp
        | succ j =>
          rw [countP_range_shift (fun x => isNonemptyOk (api x)) k j]
          have hne : isNonemptyOk (api k) = true := by
            simp [hk, isNonemptyOk, he]
          rw [hne]
          cases tot? with
          | none =>
            simp only [fetchOffsets_cons, fetchOffsets_nil, List.nil_append,
              List.cons_append] at h ⊢
            have h' : j < (fetchOffsets (extractLoop api fuel (k + 1)
                (off + 50)
                (some ((none : Option Nat).getD page.total))).steps).length := by
              simpa using h
            simp only [List.getElem?_cons_succ]
            rw [ih (k + 1) (off + 50) _ j h']
            simp only [if_true, reduceIte]
            congr 1
            omega
          | some T =>
            simp only [fetchOffsets_cons, fetchOffsets_nil, List.nil_append,
              List.cons_append] at h ⊢
            have h' : j < (fetchOffsets (extractLoop api fuel (k + 1)
                (off + 50)
                (some ((some T).getD page.total))).steps).length := by
              simpa using h
            simp only [List.getElem?_cons_succ]
            rw [ih (k + 1) (off + 50) _ j h']
            simp only [if_true, reduceIte]
            congr 1
            omega

/-- Rate-limit-event law: the extractor emits one `RateLimited` event per 429
call, in call order, carrying the `Retry-After` header value or the
default 30. -/
theorem extract_rl_law (api : ApiEnv) :
    ∀ (fuel k off : Nat) (tot? : Option Nat),
      exRlOf (extractLoop api fuel k off tot?).steps =
        (List.range
            (fetchOffsets (extractLoop api fuel k off tot?).steps).length).filterMap
          fun m =>
            match api (k + m) with
            | .raise429 ra => some (ra.getD 30)
            | _ => none := by
  intro fuel
  induction fuel with
  | zero =>
    intro k off tot?
    simp [extractLoop, ExOutcome.steps, exRlOf, fetchOffsets]
  | succ fuel ih =>
    intro k off tot?
    simp only [extractLoop]
    cases hk : api k with
    | raise429 ra =>
      rw [ExOutcome.steps_prepend]
      simp only [List.cons_append, List.nil_append, exRlOf_cons,
        fetchOffsets_cons, List.length_cons, List.length_append,
        List.length_nil]
      rw [show ((fetchOffsets
          (extractLoop api fuel (k + 1) off tot?).steps).length + 1) =
          (fetchOffsets (extractLoop api fuel (k + 1) off tot?).steps).length
            + 1 from rfl]
      rw [filterMap_range_shift
        (fun x => match api x with
          | .raise429 ra2 => some (ra2.getD 30)
          | _ => none) k]
      rw [hk]
      simp only [Option.toList]
      rw [ih (k + 1) off tot?]
      simp
    | raiseOther st m =>
      simp [hk, ExOutcome.steps, exRlOf, fetchOffsets, List.range_succ]
    | ok page =>
      dsimp only
      by_cases he : page.items.isEmpty
      · rw [if_pos he]
        cases tot? <;>
        · simp only [ExOutcome.steps, List.cons_append, List.nil_append,
            exRlOf_cons, exRlOf_nil, fetchOffsets_cons, fetchOffsets_nil,
            List.length_cons, List.length_append, List.length_nil]
          rw [filterMap_range_shift
            (fun x => match api x with
              | .raise429 ra2 => some (ra2.getD 30)
              | _ => none) k]
          rw [hk]
          simp
      · rw [if_neg he]
        rw [ExOutcome.steps_prepend]
        cases tot? <;>
        · simp only [List.append_assoc, List.cons_append, List.nil_append,
            exRlOf_cons, exRlOf_nil, exRlOf_append, exRlOf_itemEvents,
            fetchOffsets_cons, fetchOffsets_nil, fetchOffsets_append,
            fetchOffsets_itemEvents, List.length_cons, List.length_append,
            List.length_nil]
          rw [filterMap_range_shift
            (fun x => match api x with
              | .raise429 ra2 => some (ra2.getD 30)
              | _ => none) k]
          rw [hk]
          rw [ih (k + 1) (off + 50) _]
          simp

/-- Progress-count law: the extractor emits exactly one extraction Progress
event per non-empty page fetched. -/
theorem extract_progress_count (api : ApiEnv) :
    ∀ (fuel k off : Nat) (tot? : Option Nat),
      (exProgressOf (extractLoop api fuel k off tot?).steps).length =
        (List.range
            (fetchOffsets (extractLoop api fuel k off tot?).steps).length).countP
          fun m => isNonemptyOk (api (k + m)) := by
  intro fuel
  induction fuel with
  | zero =>
    intro k off tot?
    simp [extractLoop, ExOutcome.steps, exProgressOf, fetchOffsets]
  | succ fuel ih =>
    intro k off tot?
    simp only [extractLoop]
    cases hk : api k with
    | raise429 ra =>
      rw [ExOutcome.steps_prepend]
      simp only [List.cons_append, List.nil_append, exProgressOf_cons,
        fetchOffsets_cons, List.length_cons]
      rw [countP_range_shift (fun x => isNonemptyOk (api x)) k]
      rw [ih (k + 1) off tot?]
      simp [hk, isNonemptyOk]
    | raiseOther st m =>
      simp [hk, ExOutcome.steps, exProgressOf, fetchOffsets, isNonemptyOk,
        List.range_succ]
    | ok page =>
      dsimp only
      by_cases he : page.items.isEmpty
      · rw [if_pos he]
        cases tot? <;>
        · simp only [ExOutcome.steps, List.cons_append, List.nil_append,
            exProgressOf_cons, exProgressOf_nil, fetchOffsets_cons,
            fetchOffsets_nil, List.length_cons, List.length_append,
            List.length_nil]
          rw [countP_range_shift (fun x => isNonemptyOk (api x)) k]
          simp [hk, isNonemptyOk, he]
      · rw [if_neg he]
        rw [ExOutcome.steps_prepend]
        cases tot? <;>
        · simp only [List.append_assoc, List.cons_append, List.nil_append,
            exProgressOf_cons, exProgressOf_nil, exProgressOf_append,
            exProgressOf_itemEvents, fetchOffsets_cons, fetchOffsets_nil,
            fetchOffsets_append, fetchOffsets_itemEvents, List.length_cons,
            List.length_append, List.length_nil]
          rw [countP_range_shift (fun x => isNonemptyOk (api x)) k]
          rw [ih (k + 1) (off + 50) _]
          simp [hk, isNonemptyOk, he]
          try omega

theorem itemsOf_ok (p : Page) : itemsOf (ApiResult.ok p) = p.items := rfl

theorem itemsOf_raise429 (ra : Option Nat) :
    itemsOf (ApiResult.raise429 ra) = [] := rfl

/-- Once the Python `total` variable is set, no further Total event is
emitted. -/
theorem totalsOf_extract_some (api : ApiEnv) (T : Nat) :
    ∀ (fuel k off : Nat),
      totalsOf (extractLoop api fuel k off (some T)).steps = [] := by
  intro fuel
  induction fuel with
  | zero => intro k off; rfl
  | succ fuel ih =>
    intro k off
    simp only [extractLoop]
    cases hk : api k with
    | raise429 ra =>
      rw [ExOutcome.steps_prepend]
      simp only [List.cons_append, List.nil_append, totalsOf_cons]
      exact ih (k + 1) off
    | raiseOther st m => rfl
    | ok page =>
      dsimp only
      by_cases he : page.items.isEmpty
      · rw [if_pos he]
        rfl
      · rw [if_neg he]
        rw [ExOutcome.steps_prepend]
        simp only [List.append_assoc, List.cons_append, List.nil_append,
          totalsOf_cons, totalsOf_nil, totalsOf_append, totalsOf_itemEvents]
        exact ih (k + 1) (off + 50)

/-- Total-event law: when the first successful page of the run is call `m`,
the run emits exactly one Total event, carrying that page's API-reported
total. -/
theorem totalsOf_extract_first_ok (api : ApiEnv) :
    ∀ (fuel k off : Nat) (m : Nat),
      m < (fetchOffsets (extractLoop api fuel k off none).steps).length →
      isOkCall (api (k + m)) = true →
      (∀ m2, m2 < m → isOkCall (api (k + m2)) = false) →
      totalsOf (extractLoop api fuel k off none).steps =
        [totalOfRes (api (k + m))] := by
  intro fuel
  induction fuel with
  | zero =>
    intro k off m hm hok hfirst
    simp [extractLoop, ExOutcome.steps, fetchOffsets] at hm
  | succ fuel ih =>
    intro k off m
    simp only [extractLoop]
    cases hk : api k with
    | raise429 ra =>
      rw [ExOutcome.steps_prepend]
      simp only [List.cons_append, List.nil_append, totalsOf_cons,
        fetchOffsets_cons, List.length_cons]
      intro hm hok hfirst
      cases m with
      | zero =>
        rw [Nat.add_zero, hk] at hok
        simp [isOkCall] at hok
      | succ m =>
        have harith : k + (m + 1) = k + 1 + m := by omega
        rw [harith] at hok ⊢
        refine ih (k + 1) off m (by omega) hok ?_
        intro m2 hm2
        have harith2 : k + 1 + m2 = k + (m2 + 1) := by omega
        rw [harith2]
        exact hfirst (m2 + 1) (by omega)
    | raiseOther st m0 =>
      simp only [ExOutcome.steps, fetchOffsets_cons, fetchOffsets_nil,
        List.length_append, List.length_cons, List.length_nil]
      intro hm hok hfirst
      have hm0 : m = 0 := by omega
      subst hm0
      rw [Nat.add_zero, hk] at hok
      simp [isOkCall] at hok
    | ok page =>
      dsimp only
      intro hm hok hfirst
      cases m with
      | succ m =>
        have h0 := hfirst 0 (by omega)
        rw [Nat.add_zero, hk] at h0
        simp [isOkCall] at h0
      | zero =>
        simp only [Nat.add_zero, hk]
        by_cases he : page.items.isEmpty
        · rw [if_pos he]
          simp [ExOutcome.steps, totalsOf, totalOfRes]
        · rw [if_neg he]
          rw [ExOutcome.steps_prepend]
          simp only [List.append_assoc, List.cons_append, List.nil_append,
            totalsOf_cons, totalsOf_nil, totalsOf_append, totalsOf_itemEvents]
          rw [totalsOf_extract_some]
          simp [totalOfRes]

/-- If no call of the run succeeds, no Total event is emitted. -/
theorem totalsOf_extract_no_ok (api : ApiEnv) :
    ∀ (fuel k off : Nat),
      (∀ m, m < (fetchOffsets (extractLoop api fuel k off none).steps).length →
        isOkCall (api (k + m)) = false) →
      totalsOf (extractLoop api fuel k off none).steps = [] := by
  intro fuel
  induction fuel with
  | zero => intro k off _; rfl
  | succ fuel ih =>
    intro k off
    simp only [extractLoop]
    cases hk : api k with
    | raise429 ra =>
      rw [ExOutcome.steps_prepend]
      simp only [List.cons_append, List.nil_append, totalsOf_cons,
        fetchOffsets_cons, List.length_cons]
      intro hall
      refine ih (k + 1) off ?_
      intro m hm
      have harith : k + 1 + m = k + (m + 1) := by omega
      rw [harith]
      exact hall (m + 1) (by omega)
    | raiseOther st m0 => intro _; rfl
    | ok page =>
      dsimp only
      intro hall
      have h0 := hall 0 (by
        by_cases he : page.items.isEmpty
        · rw [if_pos he]
          simp [ExOutcome.steps, fetchOffsets]
        · rw [if_neg he]
          rw [ExOutcome.steps_prepend]
          simp [fetchOffsets_cons])
      rw [Nat.add_zero, hk] at h0
      simp [isOkCall] at h0

/-- Track-event law: the run yields one normalized record per non-null item
of the fetched pages, in order (null-track items are skipped). -/
theorem extract_tracks_law (api : ApiEnv) :
    ∀ (fuel k off : Nat) (tot? : Option Nat),
      trackRecsOf (extractLoop api fuel k off tot?).steps =
        ((List.range
            (fetchOffsets (extractLoop api fuel k off tot?).steps).length).flatMap
              fun m => itemsOf (api (k + m))).filterMap
          fun it => it.track.map fun t => recordOfItem t it.added_at := by
  intro fuel
  induction fuel with
  | zero =>
    intro k off tot?
    simp [extractLoop, ExOutcome.steps, trackRecsOf, fetchOffsets]
  | succ fuel ih =>
    intro k off tot?
    simp only [extractLoop]
    cases hk : api k with
    | raise429 ra =>
      rw [ExOutcome.steps_prepend]
      simp only [List.cons_append, List.nil_append, trackRecsOf_cons,
        fetchOffsets_cons, List.length_cons]
      rw [flatMap_range_shift (fun x => itemsOf (api x)) k]
      rw [hk]
      simp only [itemsOf_raise429, List.nil_append]
      rw [ih (k + 1) off tot?]
    | raiseOther st m =>
      simp [hk, ExOutcome.steps, trackRecsOf, fetchOffsets, itemsOf,
        List.range_succ]
    | ok page =>
      dsimp only
      by_cases he : page.items.isEmpty
      · rw [if_pos he]
        have hitems : page.items = [] := List.isEmpty_iff.mp he
        cases tot? <;>
          simp [hk, ExOutcome.steps, trackRecsOf, fetchOffsets, itemsOf,
            List.range_succ, hitems]
      · rw [if_neg he]
        rw [ExOutcome.steps_prepend]
        cases tot? <;>
        · simp only [List.append_assoc, List.cons_append, List.nil_append,
            trackRecsOf_cons, trackRecsOf_nil, trackRecsOf_append,
            trackRecsOf_itemEvents, fetchOffsets_cons, fetchOffsets_nil,
            fetchOffsets_append, fetchOffsets_itemEvents, List.length_cons,
            List.length_append, List.length_nil]
          rw [flatMap_range_shift (fun x => itemsOf (api x)) k]
          rw [hk]
          simp only [itemsOf_ok]
          rw [ih (k + 1) (off + 50) _]
          simp [List.filterMap_append]

/-- If the pagination loop finishes normally, its last call returned an empty
page. -/
theorem extract_finished_last_empty (api : ApiEnv) :
    ∀ (fuel k off : Nat) (tot? : Option Nat) (tr : List ExStep),
      extractLoop api fuel k off tot? = .finished tr →
      1 ≤ (fetchOffsets tr).length ∧
      isEmptyOk (api (k + ((fetchOffsets tr).length - 1))) = true := by
  intro fuel
  induction fuel with
  | zero =>
    intro k off tot? tr heq
    simp [extractLoop] at heq
  | succ fuel ih =>
    intro k off tot? tr
    simp only [extractLoop]
    cases hk : api k with
    | raise429 ra =>
      cases hrec : extractLoop api fuel (k + 1) off tot? with
      | finished tr2 =>
        intro heq
        simp only [ExOutcome.prepend, ExOutcome.finished.injEq] at heq
        subst heq
        obtain ⟨h1, h2⟩ := ih (k + 1) off tot? tr2 hrec
        simp only [List.cons_append, List.nil_append, fetchOffsets_cons,
          List.length_cons]
        refine ⟨by omega, ?_⟩
        have harith : k + ((fetchOffsets tr2).length + 1 - 1) =
            k + 1 + ((fetchOffsets tr2).length - 1) := by omega
        rw [harith]
        exact h2
      | failed tr2 st m =>
        intro heq
        simp [ExOutcome.prepend] at heq
      | fuelOut tr2 =>
        intro heq
        simp [ExOutcome.prepend] at heq
    | raiseOther st m => intro heq; simp at heq
    | ok page =>
      dsimp only
      by_cases he : page.items.isEmpty
      · rw [if_pos he]
        intro heq
        simp only [ExOutcome.finished.injEq] at heq
        subst heq
        cases tot? <;>
          simp [fetchOffsets_cons, fetchOffsets_nil, isEmptyOk, hk, he,
            fetchOffsets]
      · rw [if_neg he]
        cases hrec : extractLoop api fuel (k + 1) (off + 50)
            (some (tot?.getD page.total)) with
        | finished tr2 =>
          intro heq
          simp only [ExOutcome.prepend, ExOutcome.finished.injEq] at heq
          subst heq
          obtain ⟨h1, h2⟩ := ih (k + 1) (off + 50) _ tr2 hrec
          simp only [List.append_assoc, List.cons_append, List.nil_append,
            fetchOffsets_append, fetchOffsets_cons, fetchOffsets_nil,
            fetchOffsets_itemEvents, List.length_cons, List.length_append,
            List.length_nil]
          cases tot? <;>
          · simp only [fetchOffsets_cons, fetchOffsets_nil, List.nil_append,
              List.length_cons, List.length_nil]
            refine ⟨by omega, ?_⟩
            have harith : k + (0 + (fetchOffsets tr2).length + 1 - 1) =
                k + 1 + ((fetchOffsets tr2).length - 1) := by omega
            rw [harith]
            exact h2
        | failed tr2 st m =>
          intro heq
          simp [ExOutcome.prepend] at heq
        | fuelOut tr2 =>
          intro heq
          simp [ExOutcome.prepend] at heq

/-- Every made call except possibly the last returned a non-empty successful
page or a failure — never an empty page (an empty page always ends the
run). -/
theorem extract_no_early_empty (api : ApiEnv) :
    ∀ (fuel k off : Nat) (tot? : Option Nat) (m : Nat),
      m + 1 < (fetchOffsets (extractLoop api fuel k off tot?).steps).length →
      isEmptyOk (api (k + m)) = false := by
  intro fuel
  induction fuel with
  | zero =>
    intro k off tot? m hm
    simp [extractLoop, ExOutcome.steps, fetchOffsets] at hm
  | succ fuel ih =>
    intro k off tot? m
    simp only [extractLoop]
    cases hk : api k with
    | raise429 ra =>
      rw [ExOutcome.steps_prepend]
      simp only [List.cons_append, List.nil_append, fetchOffsets_cons,
        List.length_cons]
      intro hm
      cases m with
      | zero => simp [hk, isEmptyOk]
      | succ m =>
        have harith : k + (m + 1) = k + 1 + m := by omega
        rw [harith]
        exact ih (k + 1) off tot? m (by omega)
    | raiseOther st m0 =>
      simp only [ExOutcome.steps, fetchOffsets_cons, fetchOffsets_nil]
      intro hm
      simp at hm
    | ok page =>
      dsimp only
      by_cases he : page.items.isEmpty
      · rw [if_pos he]
        intro hm
        cases tot? <;>
          (simp [ExOutcome.steps, fetchOffsets] at hm; try omega)
      · rw [if_neg he]
        rw [ExOutcome.steps_prepend]
        simp only [List.append_assoc, List.cons_append, List.nil_append,
          fetchOffsets_append, fetchOffsets_cons, fetchOffsets_nil,
          fetchOffsets_itemEvents, List.length_cons, List.length_append,
          List.length_nil]
        intro hm
        cases m with
        | zero => simp [hk, isEmptyOk, he]
        | succ m =>
          have harith : k + (m + 1) = k + 1 + m := by omega
          rw [harith]
          refine ih (k + 1) (off + 50) (some (tot?.getD page.total)) m ?_
          cases tot? <;>
            (simp only [Option.getD_none, Option.getD_some, fetchOffsets_cons,
              fetchOffsets_nil, List.nil_append, List.length_cons,
              List.length_nil] at hm ⊢; omega)

/-- Conversely: if the last call the run made returned an empty page, the
loop finished normally (an empty page always terminates pagination). -/
theorem extract_empty_finishes (api : ApiEnv) :
    ∀ (fuel k off : Nat) (tot? : Option Nat),
      1 ≤ (fetchOffsets (extractLoop api fuel k off tot?).steps).length →
      isEmptyOk (api (k +
        ((fetchOffsets (extractLoop api fuel k off tot?).steps).length - 1)))
          = true →
      ∃ tr, extractLoop api fuel k off tot? = .finished tr := by
  intro fuel
  induction fuel with
  | zero =>
    intro k off tot? h1 h2
    simp [extractLoop, ExOutcome.steps, fetchOffsets] at h1
  | succ fuel ih =>
    intro k off tot?
    simp only [extractLoop]
    cases hk : api k with
    | raise429 ra =>
      rw [ExOutcome.steps_prepend]
      simp only [List.cons_append, List.nil_append, fetchOffsets_cons,
        List.length_cons]
      intro h1 h2
      by_cases hz :
          (fetchOffsets (extractLoop api fuel (k + 1) off tot?).steps).length
            = 0
      · rw [hz] at h2
        have h2b : isEmptyOk (api k) = true := by simpa using h2
        exact absurd h2b (by simp [hk, isEmptyOk])
      · have harith : k + ((fetchOffsets
            (extractLoop api fuel (k + 1) off tot?).steps).length + 1 - 1) =
            k + 1 + ((fetchOffsets
              (extractLoop api fuel (k + 1) off tot?).steps).length - 1) := by
          omega
        rw [harith] at h2
        obtain ⟨tr, htr⟩ := ih (k + 1) off tot? (by omega) h2
        exact ⟨_, by rw [htr]; rfl⟩
    | raiseOther st m =>
      intro h1 h2
      have h2b : isEmptyOk (api k) = true := by
        simpa [ExOutcome.steps, fetchOffsets] using h2
      exact absurd h2b (by simp [hk, isEmptyOk])
    | ok page =>
      dsimp only
      by_cases he : page.items.isEmpty
      · rw [if_pos he]
        intro h1 h2
        exact ⟨_, rfl⟩
      · rw [if_neg he]
        rw [ExOutcome.steps_prepend]
        simp only [List.append_assoc, List.cons_append, List.nil_append,
          fetchOffsets_append, fetchOffsets_cons, fetchOffsets_nil,
          fetchOffsets_itemEvents, List.length_cons, List.length_append,
          List.length_nil]
        intro h1 h2
        by_cases hz : (fetchOffsets (extractLoop api fuel (k + 1) (off + 50)
            (some (tot?.getD page.total))).steps).length = 0
        · exfalso
          cases tot? <;> simp_all [fetchOffsets_cons, fetchOffsets_nil] <;>
            simp_all [hk, isEmptyOk, he]
        · have key1 : ∀ n : Nat, ¬n = 0 →
              k + (0 + n + 1 - 1) = k + 1 + (n - 1) := by
            intro n hn
            omega
          cases tot? with
          | none =>
            simp only [Option.getD_none] at hz h2 ⊢
            simp only [fetchOffsets_cons, fetchOffsets_nil, List.nil_append,
              List.length_cons, List.length_nil] at h2
            rw [key1 _ hz] at h2
            obtain ⟨tr, htr⟩ := ih (k + 1) (off + 50) (some page.total)
              (by omega) h2
            exact ⟨_, by rw [htr]; rfl⟩
          | some T =>
            simp only [Option.getD_some] at hz h2 ⊢
            simp only [fetchOffsets_cons, fetchOffsets_nil, List.nil_append,
              List.length_cons, List.length_nil] at h2
            rw [key1 _ hz] at h2
            obtain ⟨tr, htr⟩ := ih (k + 1) (off + 50) (some T)
              (by omega) h2
            exact ⟨_, by rw [htr]; rfl⟩

/-- If the run ends with a propagated exception, the exception came from its
last call, which was a non-429 failure, and nothing is emitted after that
fetch (the trace ends at the failing fetch step). -/
theorem extract_failed_last_raise (api : ApiEnv) :
    ∀ (fuel k off : Nat) (tot? : Option Nat) (tr : List ExStep) (st : Nat)
      (msg : String),
      extractLoop api fuel k off tot? = .failed tr st msg →
      1 ≤ (fetchOffsets tr).length ∧
      api (k + ((fetchOffsets tr).length - 1)) = .raiseOther st msg ∧
      ∃ o, tr.getLast? = some (.fetch o) := by
  intro fuel
  induction fuel with
  | zero =>
    intro k off tot? tr st msg heq
    simp [extractLoop] at heq
  | succ fuel ih =>
    intro k off tot? tr st msg
    simp only [extractLoop]
    cases hk : api k with
    | raise429 ra =>
      cases hrec : extractLoop api fuel (k + 1) off tot? with
      | finished tr2 =>
        intro heq
        simp [ExOutcome.prepend] at heq
      | failed tr2 st2 m2 =>
        intro heq
        simp only [ExOutcome.prepend, ExOutcome.failed.injEq] at heq
        obtain ⟨htr, hst, hm⟩ := heq
        subst htr
        subst hst
        subst hm
        obtain ⟨h1, h2, o, h3⟩ := ih (k + 1) off tot? tr2 st2 m2 hrec
        simp only [List.cons_append, List.nil_append, fetchOffsets_cons,
          List.length_cons]
        refine ⟨by omega, ?_, ⟨o, ?_⟩⟩
        · have harith : k + ((fetchOffsets tr2).length + 1 - 1) =
              k + 1 + ((fetchOffsets tr2).length - 1) := by omega
          rw [harith]
          exact h2
        · show ([ExStep.fetch off, .emit (.rateLimit (ra.getD 30)),
              .sleep (ra.getD 30 * 1000)] ++ tr2).getLast? = some (.fetch o)
          rw [List.getLast?_append, h3]
          rfl
      | fuelOut tr2 =>
        intro heq
        simp [ExOutcome.prepend] at heq
    | raiseOther st2 m2 =>
      intro heq
      simp only [ExOutcome.failed.injEq] at heq
      obtain ⟨htr, hst, hm⟩ := heq
      subst htr
      subst hst
      subst hm
      refine ⟨by simp [fetchOffsets], ?_, ⟨off, rfl⟩⟩
      simp only [fetchOffsets_cons, fetchOffsets_nil, List.nil_append,
        List.length_cons, List.length_nil, Nat.zero_add, Nat.sub_self,
        Nat.add_zero]
      exact hk
    | ok page =>
      dsimp only
      by_cases he : page.items.isEmpty
      · rw [if_pos he]
        intro heq
        simp at heq
      · rw [if_neg he]
        cases hrec : extractLoop api fuel (k + 1) (off + 50)
            (some (tot?.getD page.total)) with
        | finished tr2 =>
          intro heq
          simp [ExOutcome.prepend] at heq
        | failed tr2 st2 m2 =>
          intro heq
          simp only [ExOutcome.prepend, ExOutcome.failed.injEq] at heq
          obtain ⟨htr, hst, hm⟩ := heq
          subst htr
          subst hst
          subst hm
          obtain ⟨h1, h2, o, h3⟩ := ih (k + 1) (off + 50) _ tr2 st2 m2 hrec
          constructor
          · cases tot? <;>
              simp [fetchOffsets_append, fetchOffsets_cons, fetchOffsets_nil,
                fetchOffsets_itemEvents]
          constructor
          · have key1 : ∀ n : Nat, 1 ≤ n →
                k + (n + 1 - 1) = k + 1 + (n - 1) := by
              intro n hn
              omega
            cases tot? <;>
            · simp only [List.append_assoc, List.cons_append, List.nil_append,
                fetchOffsets_append, fetchOffsets_cons, fetchOffsets_nil,
                fetchOffsets_itemEvents, List.length_cons, List.length_append,
                List.length_nil, Nat.zero_add, Nat.add_zero]
              rw [key1 _ h1]
              exact h2
          · refine ⟨o, ?_⟩
            rw [List.getLast?_append, h3]
            rfl
        | fuelOut tr2 =>
          intro heq
          simp [ExOutcome.prepend] at heq

/-- Conversely: a non-429 failure at any made call is the run's last call,
and the run's outcome is the propagated exception. -/
theorem extract_raise_aborts (api : ApiEnv) :
    ∀ (fuel k off : Nat) (tot? : Option Nat) (m st : Nat) (msg : String),
      m < (fetchOffsets (extractLoop api fuel k off tot?).steps).length →
      api (k + m) = .raiseOther st msg →
      m = (fetchOffsets (extractLoop api fuel k off tot?).steps).length - 1 ∧
      ∃ tr, extractLoop api fuel k off tot? = .failed tr st msg := by
  intro fuel
  induction fuel with
  | zero =>
    intro k off tot? m st msg hm hraise
    simp [extractLoop, ExOutcome.steps, fetchOffsets] at hm
  | succ fuel ih =>
    intro k off tot? m st msg
    simp only [extractLoop]
    cases hk : api k with
    | raise429 ra =>
      rw [ExOutcome.steps_prepend]
      simp only [List.cons_append, List.nil_append, fetchOffsets_cons,
        List.length_cons]
      intro hm hraise
      cases m with
      | zero =>
        rw [Nat.add_zero, hk] at hraise
        simp at hraise
      | succ m =>
        have harith : k + (m + 1) = k + 1 + m := by omega
        rw [harith] at hraise
        obtain ⟨hlast, tr, htr⟩ := ih (k + 1) off tot? m st msg (by omega)
          hraise
        refine ⟨by omega, ⟨_, by rw [htr]; rfl⟩⟩
    | raiseOther st2 m2 =>
      simp only [ExOutcome.steps, fetchOffsets_cons, fetchOffsets_nil]
      intro hm hraise
      have hm0 : m = 0 := by
        simp at hm
        omega
      subst hm0
      rw [Nat.add_zero, hk] at hraise
      simp only [ApiResult.raiseOther.injEq] at hraise
      obtain ⟨h1, h2⟩ := hraise
      subst h1
      subst h2
      exact ⟨by simp [fetchOffsets], ⟨_, rfl⟩⟩
    | ok page =>
      dsimp only
      by_cases he : page.items.isEmpty
      · rw [if_pos he]
        intro hm hraise
        have hm0 : m = 0 := by
          cases tot? <;>
            simp [ExOutcome.steps, fetchOffsets] at hm <;> omega
        subst hm0
        rw [Nat.add_zero, hk] at hraise
        simp at hraise
      · rw [if_neg he]
        rw [ExOutcome.steps_prepend]
        simp only [List.append_assoc, List.cons_append, List.nil_append,
          fetchOffsets_append, fetchOffsets_cons, fetchOffsets_nil,
          fetchOffsets_itemEvents, List.length_cons, List.length_append,
          List.length_nil]
        intro hm hraise
        cases m with
        | zero =>
          rw [Nat.add_zero, hk] at hraise
          simp at hraise
        | succ m =>
          have harith : k + (m + 1) = k + 1 + m := by omega
          rw [harith] at hraise
          have hm' : m < (fetchOffsets (extractLoop api fuel (k + 1)
              (off + 50) (some (tot?.getD page.total))).steps).length := by
            cases tot? <;>
              (simp only [Option.getD_none, Option.getD_some,
                fetchOffsets_cons, fetchOffsets_nil, List.nil_append,
                List.length_cons, List.length_nil] at hm ⊢; omega)
          obtain ⟨hlast, tr, htr⟩ := ih (k + 1) (off + 50) _ m st msg hm'
            hraise
          constructor
          · cases tot? <;>
              (simp only [Option.getD_none, Option.getD_some,
                fetchOffsets_cons, fetchOffsets_nil, List.nil_append,
                List.length_cons, List.length_nil] at hm' hlast ⊢; omega)
          · exact ⟨_, by rw [htr]; rfl⟩

/-- Shape of a 429 call's segment: the fetch at some offset `o`, the
rate-limit event with the `Retry-After` value (default 30), and the
`retry_after`-second sleep — and the NEXT call (the retry) fetches at the
same offset `o`. -/
theorem exSegs_429_shape (api : ApiEnv) :
    ∀ (fuel k off : Nat) (tot? : Option Nat) (m : Nat)
      (h : m < (exSegs api fuel k off tot?).length) (ra : Option Nat),
      api (k + m) = .raise429 ra →
      ∃ o, (exSegs api fuel k off tot?).get ⟨m, h⟩ =
          [.fetch o, .emit (.rateLimit (ra.getD 30)),
           .sleep (ra.getD 30 * 1000)] ∧
        ∀ (h2 : m + 1 < (exSegs api fuel k off tot?).length),
          ((exSegs api fuel k off tot?).get ⟨m + 1, h2⟩).head? =
            some (.fetch o) := by
  intro fuel
  induction fuel with
  | zero =>
    intro k off tot? m h
    simp [exSegs] at h
  | succ fuel ih =>
    intro k off tot? m
    simp only [exSegs]
    cases hk : api k with
    | raise429 ra0 =>
      cases m with
      | zero =>
        intro h ra hra
        rw [Nat.add_zero, hk] at hra
        simp only [ApiResult.raise429.injEq] at hra
        subst hra
        refine ⟨off, by simp, ?_⟩
        intro h2
        have h2' : 0 < (exSegs api fuel (k + 1) off tot?).length := by
          simpa using h2
        have := exSegs_get_zero_head api fuel (k + 1) off tot? h2'
        simpa using this
      | succ m =>
        intro h ra hra
        have harith : k + (m + 1) = k + 1 + m := by omega
        rw [harith] at hra
        have h' : m < (exSegs api fuel (k + 1) off tot?).length := by
          simpa using h
        obtain ⟨o, ho, hnext⟩ := ih (k + 1) off tot? m h' ra hra
        refine ⟨o, by simpa using ho, ?_⟩
        intro h2
        have h2' : m + 1 < (exSegs api fuel (k + 1) off tot?).length := by
          simpa using h2
        have := hnext h2'
        simpa using this
    | raiseOther st m0 =>
      cases m with
      | zero =>
        intro h ra hra
        rw [Nat.add_zero, hk] at hra
        simp at hra
      | succ m =>
        intro h
        simp at h
    | ok page =>
      dsimp only
      by_cases he : page.items.isEmpty
      · rw [if_pos he]
        cases m with
        | zero =>
          intro h ra hra
          rw [Nat.add_zero, hk] at hra
          simp at hra
        | succ m =>
          intro h
          simp at h
      · rw [if_neg he]
        cases m with
        | zero =>
          intro h ra hra
          rw [Nat.add_zero, hk] at hra
          simp at hra
        | succ m =>
          intro h ra hra
          have harith : k + (m + 1) = k + 1 + m := by omega
          rw [harith] at hra
          have h' : m < (exSegs api fuel (k + 1) (off + 50)
              (some (tot?.getD page.total))).length := by
            simpa using h
          obtain ⟨o, ho, hnext⟩ := ih (k + 1) (off + 50) _ m h' ra hra
          refine ⟨o, by simpa using ho, ?_⟩
          intro h2
          have h2' : m + 1 < (exSegs api fuel (k + 1) (off + 50)
              (some (tot?.getD page.total))).length := by
            simpa using h2
          have := hnext h2'
          simpa using this

/-- Progress-value law with the total already set: the `j`-th progress event
of the remaining run carries `(min (off + 50·(j+1)) T, T)`. -/
theorem exProgress_getElem_some (api : ApiEnv) (T : Nat) :
    ∀ (fuel k off : Nat) (j : Nat),
      j < (exProgressOf (extractLoop api fuel k off (some T)).steps).length →
      (exProgressOf (extractLoop api fuel k off (some T)).steps)[j]? =
        some (min (off + 50 * (j + 1)) T, T) := by
  intro fuel
  induction fuel with
  | zero =>
    intro k off j h
    simp [extractLoop, ExOutcome.steps, exProgressOf] at h
  | succ fuel ih =>
    intro k off j
    simp only [extractLoop]
    cases hk : api k with
    | raise429 ra =>
      simp only [ExOutcome.steps_prepend, List.cons_append, List.nil_append,
        exProgressOf_cons]
      intro h
      exact ih (k + 1) off j (by simpa using h)
    | raiseOther st m =>
      intro h
      simp [ExOutcome.steps, exProgressOf] at h
    | ok page =>
      dsimp only
      by_cases he : page.items.isEmpty
      · rw [if_pos he]
        intro h
        simp [ExOutcome.steps, exProgressOf] at h
      · rw [if_neg he]
        simp only [ExOutcome.steps_prepend, List.append_assoc,
          List.cons_append, List.nil_append, exProgressOf_cons,
          exProgressOf_nil, exProgressOf_append, exProgressOf_itemEvents,
          Option.getD_some]
        intro h
        cases j with
        | zero =>
          simp only [List.nil_append, List.getElem?_cons_zero]
        | succ j =>
          simp only [List.nil_append, List.getElem?_cons_succ]
          have h' : j < (exProgressOf (extractLoop api fuel (k + 1)
              (off + 50) (some T)).steps).length := by
            simpa using h
          rw [ih (k + 1) (off + 50) j h']
          have harith : off + 50 + 50 * (j + 1) = off + 50 * (j + 1 + 1) := by
            omega
          rw [harith]

/-- Progress-value law from the start of the run: when the run's single Total
event carries `T`, the `j`-th progress event is
`(min (50·(j+1)) T, T)` — i.e. `min(offset, total)` with the offset advanced
by 50 per page. -/
theorem exProgress_getElem_law (api : ApiEnv) :
    ∀ (fuel k off T : Nat),
      totalsOf (extractLoop api fuel k off none).steps = [T] →
      ∀ j, j < (exProgressOf (extractLoop api fuel k off none).steps).length →
      (exProgressOf (extractLoop api fuel k off none).steps)[j]? =
        some (min (off + 50 * (j + 1)) T, T) := by
  intro fuel
  induction fuel with
  | zero =>
    intro k off T htot
    simp [extractLoop, ExOutcome.steps, totalsOf] at htot
  | succ fuel ih =>
    intro k off T
    simp only [extractLoop]
    cases hk : api k with
    | raise429 ra =>
      simp only [ExOutcome.steps_prepend, List.cons_append, List.nil_append,
        totalsOf_cons, exProgressOf_cons]
      intro htot j h
      exact ih (k + 1) off T (by simpa using htot) j (by simpa using h)
    | raiseOther st m =>
      intro htot
      simp [ExOutcome.steps, totalsOf] at htot
    | ok page =>
      dsimp only
      by_cases he : page.items.isEmpty
      · rw [if_pos he]
        intro htot j h
        simp [ExOutcome.steps, exProgressOf] at h
      · rw [if_neg he]
        simp only [ExOutcome.steps_prepend, List.append_assoc,
          List.cons_append, List.nil_append, totalsOf_cons, totalsOf_nil,
          totalsOf_append, totalsOf_itemEvents, exProgressOf_cons,
          exProgressOf_nil, exProgressOf_append, exProgressOf_itemEvents,
          Option.getD_none]
        rw [totalsOf_extract_some]
        intro htot j h
        have hT : T = page.total := by
          simp only [List.append_nil, List.cons.injEq] at htot
          exact htot.1.symm
        subst hT
        cases j with
        | zero =>
          simp only [List.nil_append, List.getElem?_cons_zero]
        | succ j =>
          simp only [List.nil_append, List.getElem?_cons_succ]
          have h' : j < (exProgressOf (extractLoop api fuel (k + 1)
              (off + 50) (some page.total)).steps).length := by
            simpa using h
          rw [exProgress_getElem_some api page.total fuel (k + 1) (off + 50)
            j h']
          have harith : off + 50 + 50 * (j + 1) = off + 50 * (j + 1 + 1) := by
            omega
          rw [harith]

theorem length_filterMap_track (l : List SavedItem) :
    (l.filterMap (fun it => it.track.map fun t =>
      recordOfItem t it.added_at)).length =
    l.countP (fun it => it.track.isSome) := by
  induction l with
  | nil => rfl
  | cons it ts ih =>
    rw [List.filterMap_cons, List.countP_cons]
    cases ht : it.track <;> simp [ht, ih]

/-! ## Claims about the extractor -/

/-- C5: `get_all_saved_tracks` paginates with fixed page size 50: the `j`-th
page fetch is issued at offset `50 · #{earlier non-empty pages}` — the offset
starts at 0 and is incremented by 50 exactly after each successful non-empty
page; one `Progress{fetched: min(offset, total), total}` event is emitted per
non-empty page processed, with `fetched = min(50·(j+1), total)`;
and the pagination loop terminates normally exactly when a fetched page
returns zero items — only an empty page ends it (never the running fetched
count reaching `total`), and an empty page always ends it (no fetch after an
empty page). -/
theorem extractor_pagination_and_termination (api : ApiEnv) (fuel : Nat) :
    (∀ j, j < (fetchOffsets (get_all_saved_tracks api fuel).steps).length →
      (fetchOffsets (get_all_saved_tracks api fuel).steps)[j]? =
        some (50 * ((List.range j).countP fun m => isNonemptyOk (api m)))) ∧
    (exProgressOf (get_all_saved_tracks api fuel).steps).length =
      ((List.range
        (fetchOffsets (get_all_saved_tracks api fuel).steps).length).countP
          fun m => isNonemptyOk (api m)) ∧
    (∀ T, totalsOf (get_all_saved_tracks api fuel).steps = [T] →
      ∀ j, j < (exProgressOf (get_all_saved_tracks api fuel).steps).length →
        (exProgressOf (get_all_saved_tracks api fuel).steps)[j]? =
          some (min (50 * (j + 1)) T, T)) ∧
    ((∃ tr, get_all_saved_tracks api fuel = .finished tr) ↔
      (1 ≤ (fetchOffsets (get_all_saved_tracks api fuel).steps).length ∧
        isEmptyOk (api
          ((fetchOffsets (get_all_saved_tracks api fuel).steps).length - 1))
          = true)) ∧
    (∀ m, m + 1 < (fetchOffsets (get_all_saved_tracks api fuel).steps).length →
      isEmptyOk (api m) = false) := by
  refine ⟨?_, ?_, ?_, ?_, ?_⟩
  · intro j hj
    have h := extract_fetch_law api fuel 0 0 none j hj
    simpa using h
  · have h := extract_progress_count api fuel 0 0 none
    simpa using h
  · intro T htot j hj
    have h := exProgress_getElem_law api fuel 0 0 T htot j hj
    simpa using h
  · constructor
    · rintro ⟨tr, htr⟩
      obtain ⟨h1, h2⟩ := extract_finished_last_empty api fuel 0 0 none tr htr
      have hsteps : (get_all_saved_tracks api fuel).steps = tr := by
        rw [show get_all_saved_tracks api fuel = .finished tr from htr]
        rfl
      rw [hsteps]
      exact ⟨h1, by simpa using h2⟩
    · rintro ⟨h1, h2⟩
      exact extract_empty_finishes api fuel 0 0 none (by simpa using h1)
        (by simpa using h2)
  · intro m hm
    have h := extract_no_early_empty api fuel 0 0 none m hm
    simpa using h

/-- C5 witness: a run whose first call is rate-limited, second call returns a
non-empty page (2 items, reported total 2) and third call returns an empty
page: the second fetch repeats offset 0 (the 429 did not advance it), the
single progress event is `(min(50, 2), 2) = (2, 2)`, and the run finished
because of the empty third page. -/
theorem extractor_pagination_and_termination_witness :
    (fetchOffsets (get_all_saved_tracks (fun k =>
        match k with
        | 0 => ApiResult.raise429 (some 5)
        | 1 => ApiResult.ok ⟨2,
            [⟨some ⟨"t1", "N1", ["A1", "A2"], "Al1", ["u1", "u2"]⟩,
              "2024-01-01"⟩, ⟨none, "2024-01-02"⟩]⟩
        | _ => ApiResult.ok ⟨2, []⟩) 4).steps)[1]? = some 0 ∧
    (exProgressOf (get_all_saved_tracks (fun k =>
        match k with
        | 0 => ApiResult.raise429 (some 5)
        | 1 => ApiResult.ok ⟨2,
            [⟨some ⟨"t1", "N1", ["A1", "A2"], "Al1", ["u1", "u2"]⟩,
              "2024-01-01"⟩, ⟨none, "2024-01-02"⟩]⟩
        | _ => ApiResult.ok ⟨2, []⟩) 4).steps)[0]? = some (2, 2) ∧
    ∃ tr, get_all_saved_tracks (fun k =>
        match k with
        | 0 => ApiResult.raise429 (some 5)
        | 1 => ApiResult.ok ⟨2,
            [⟨some ⟨"t1", "N1", ["A1", "A2"], "Al1", ["u1", "u2"]⟩,
              "2024-01-01"⟩, ⟨none, "2024-01-02"⟩]⟩
        | _ => ApiResult.ok ⟨2, []⟩) 4 = .finished tr := by
  have h := extractor_pagination_and_termination (fun k =>
    match k with
    | 0 => ApiResult.raise429 (some 5)
    | 1 => ApiResult.ok ⟨2,
        [⟨some ⟨"t1", "N1", ["A1", "A2"], "Al1", ["u1", "u2"]⟩,
          "2024-01-01"⟩, ⟨none, "2024-01-02"⟩]⟩
    | _ => ApiResult.ok ⟨2, []⟩) 4
  refine ⟨(h.1 1 (by decide)).trans (by decide),
    (h.2.2.1 2 (by decide) 0 (by decide)).trans (by decide),
    h.2.2.2.1.mpr (by decide)⟩

/-- C6: when a page fetch fails with HTTP 429, the extractor emits
`RateLimited{retryAfterSeconds}` with the `Retry-After` value (default 30),
sleeps that many seconds, and re-fetches at the SAME offset: the rate-limit
events are exactly one per 429 call with those values; a 429 call's segment
is `[fetch o, RateLimited r, sleep r]` and the very next call fetches the
same offset `o` (no page is skipped, the offset never advances across a
429); and every API failure other than 429 is fatal: the run's outcome is
the propagated exception, raised by the run's last call, with nothing
emitted after that fetch — conversely a non-429 failure at any call makes it
the run's last call. -/
theorem extractor_rate_limit_retry_and_fatal_errors (api : ApiEnv)
    (fuel : Nat) :
    exRlOf (get_all_saved_tracks api fuel).steps =
      ((List.range
          (fetchOffsets (get_all_saved_tracks api fuel).steps).length).filterMap
        fun m =>
          match api m with
          | .raise429 ra => some (ra.getD 30)
          | _ => none) ∧
    (get_all_saved_tracks api fuel).steps = (exSegs api fuel 0 0 none).flatten ∧
    (∀ m (h : m < (exSegs api fuel 0 0 none).length) (ra : Option Nat),
      api m = .raise429 ra →
      ∃ o, (exSegs api fuel 0 0 none).get ⟨m, h⟩ =
          [.fetch o, .emit (.rateLimit (ra.getD 30)),
           .sleep (ra.getD 30 * 1000)] ∧
        ∀ (h2 : m + 1 < (exSegs api fuel 0 0 none).length),
          ((exSegs api fuel 0 0 none).get ⟨m + 1, h2⟩).head? =
            some (.fetch o)) ∧
    (∀ m, m + 1 < (fetchOffsets (get_all_saved_tracks api fuel).steps).length →
      isRaise429 (api m) = true →
      (fetchOffsets (get_all_saved_tracks api fuel).steps)[m + 1]? =
        (fetchOffsets (get_all_saved_tracks api fuel).steps)[m]?) ∧
    (∀ tr st msg, get_all_saved_tracks api fuel = .failed tr st msg →
      1 ≤ (fetchOffsets tr).length ∧
      api ((fetchOffsets tr).length - 1) = .raiseOther st msg ∧
      ∃ o, tr.getLast? = some (.fetch o)) ∧
    (∀ m st msg,
      m < (fetchOffsets (get_all_saved_tracks api fuel).steps).length →
      api m = .raiseOther st msg →
      m = (fetchOffsets (get_all_saved_tracks api fuel).steps).length - 1 ∧
      ∃ tr, get_all_saved_tracks api fuel = .failed tr st msg) := by
  refine ⟨?_, extract_steps_flatten api fuel 0 0 none, ?_, ?_, ?_, ?_⟩
  · have h := extract_rl_law api fuel 0 0 none
    simpa using h
  · intro m h ra hra
    exact exSegs_429_shape api fuel 0 0 none m h ra (by simpa using hra)
  · intro m hm h429
    have hA := extract_fetch_law api fuel 0 0 none (m + 1) hm
    have hm2 : m < (fetchOffsets (extractLoop api fuel 0 0 none).steps).length :=
      Nat.lt_of_succ_lt hm
    have hB := extract_fetch_law api fuel 0 0 none m hm2
    show (fetchOffsets (extractLoop api fuel 0 0 none).steps)[m + 1]? =
      (fetchOffsets (extractLoop api fuel 0 0 none).steps)[m]?
    rw [hA, hB]
    have hcount : ((List.range (m + 1)).countP
          fun x => isNonemptyOk (api (0 + x))) =
        ((List.range m).countP fun x => isNonemptyOk (api (0 + x))) := by
      rw [List.range_succ, List.countP_append]
      have : isNonemptyOk (api m) = false := by
        cases hcall : api m with
        | raise429 ra => rfl
        | raiseOther st msg => rw [hcall] at h429; simp [isRaise429] at h429
        | ok page => rw [hcall] at h429; simp [isRaise429] at h429
      simp [this]
    rw [hcount]
  · intro tr st msg htr
    obtain ⟨h1, h2, h3⟩ := extract_failed_last_raise api fuel 0 0 none tr st
      msg htr
    exact ⟨h1, by simpa using h2, h3⟩
  · intro m st msg hm hraise
    exact extract_raise_aborts api fuel 0 0 none m st msg hm
      (by simpa using hraise)

/-- C6 witness: with the first call rate-limited (`Retry-After: 5`), the
run emits exactly `RateLimited{5}`, its first segment is
`[fetch 0, RateLimited 5, sleep 5s]`, and the second fetch is at the same
offset as the first; and a run whose first call raises a non-429 error
(HTTP 500) fails with that exception after its single fetch. -/
theorem extractor_rate_limit_retry_and_fatal_errors_witness :
    exRlOf (get_all_saved_tracks (fun k =>
        match k with
        | 0 => ApiResult.raise429 (some 5)
        | 1 => ApiResult.ok ⟨2,
            [⟨some ⟨"t1", "N1", ["A1", "A2"], "Al1", ["u1", "u2"]⟩,
              "2024-01-01"⟩, ⟨none, "2024-01-02"⟩]⟩
        | _ => ApiResult.ok ⟨2, []⟩) 4).steps = [5] ∧
    (fetchOffsets (get_all_saved_tracks (fun k =>
        match k with
        | 0 => ApiResult.raise429 (some 5)
        | 1 => ApiResult.ok ⟨2,
            [⟨some ⟨"t1", "N1", ["A1", "A2"], "Al1", ["u1", "u2"]⟩,
              "2024-01-01"⟩, ⟨none, "2024-01-02"⟩]⟩
        | _ => ApiResult.ok ⟨2, []⟩) 4).steps)[1]? =
      (fetchOffsets (get_all_saved_tracks (fun k =>
        match k with
        | 0 => ApiResult.raise429 (some 5)
        | 1 => ApiResult.ok ⟨2,
            [⟨some ⟨"t1", "N1", ["A1", "A2"], "Al1", ["u1", "u2"]⟩,
              "2024-01-01"⟩, ⟨none, "2024-01-02"⟩]⟩
        | _ => ApiResult.ok ⟨2, []⟩) 4).steps)[0]? ∧
    (∃ o, (exSegs (fun k =>
        match k with
        | 0 => ApiResult.raise429 (some 5)
        | 1 => ApiResult.ok ⟨2,
            [⟨some ⟨"t1", "N1", ["A1", "A2"], "Al1", ["u1", "u2"]⟩,
              "2024-01-01"⟩, ⟨none, "2024-01-02"⟩]⟩
        | _ => ApiResult.ok ⟨2, []⟩) 4 0 0 none).get ⟨0, by decide⟩ =
      [.fetch o, .emit (.rateLimit 5), .sleep 5000]) ∧
    (∃ tr, get_all_saved_tracks (fun _ =>
        ApiResult.raiseOther 500 "boom") 3 = .failed tr 500 "boom") := by
  have h := extractor_rate_limit_retry_and_fatal_errors (fun k =>
    match k with
    | 0 => ApiResult.raise429 (some 5)
    | 1 => ApiResult.ok ⟨2,
        [⟨some ⟨"t1", "N1", ["A1", "A2"], "Al1", ["u1", "u2"]⟩,
          "2024-01-01"⟩, ⟨none, "2024-01-02"⟩]⟩
    | _ => ApiResult.ok ⟨2, []⟩) 4
  have hf := extractor_rate_limit_retry_and_fatal_errors (fun _ =>
    ApiResult.raiseOther 500 "boom") 3
  refine ⟨h.1.trans (by decide), h.2.2.2.1 0 (by decide) (by decide), ?_, ?_⟩
  · obtain ⟨o, ho, -⟩ := h.2.2.1 0 (by decide) (some 5) rfl
    exact ⟨o, by simpa using ho⟩
  · exact (hf.2.2.2.2.2 0 500 "boom" (by decide) rfl).2

/-- C7: for every run making at least one successful call, the extractor
emits exactly one `Total` event, on the first successful page, equal to that
page's API-reported total (and no Total event when no call succeeds); it
emits exactly one `Track` event per fetched item whose underlying track is
non-null, in order — null-track items are silently skipped, so the number of
Track events is the number of fetched items having a track; each record
carries the artist names joined by `", "` and the first album image's url
(`none` when the image list is empty). -/
theorem extractor_total_once_and_track_normalization (api : ApiEnv)
    (fuel : Nat) :
    (∀ m, m < (fetchOffsets (get_all_saved_tracks api fuel).steps).length →
      isOkCall (api m) = true →
      (∀ m2, m2 < m → isOkCall (api m2) = false) →
      totalsOf (get_all_saved_tracks api fuel).steps = [totalOfRes (api m)]) ∧
    ((∀ m, m < (fetchOffsets (get_all_saved_tracks api fuel).steps).length →
        isOkCall (api m) = false) →
      totalsOf (get_all_saved_tracks api fuel).steps = []) ∧
    trackRecsOf (get_all_saved_tracks api fuel).steps =
      (((List.range
          (fetchOffsets (get_all_saved_tracks api fuel).steps).length).flatMap
            fun m => itemsOf (api m)).filterMap
        fun it => it.track.map fun t =>
          { id := t.id
            name := t.name
            artists := String.intercalate ", " t.artists
            album := t.album
            image := t.images.head?
            added_at := it.added_at }) ∧
    (trackRecsOf (get_all_saved_tracks api fuel).steps).length =
      (((List.range
          (fetchOffsets (get_all_saved_tracks api fuel).steps).length).flatMap
            fun m => itemsOf (api m)).countP
        fun it => it.track.isSome) := by
  have htracks := extract_tracks_law api fuel 0 0 none
  refine ⟨?_, ?_, ?_, ?_⟩
  · intro m hm hok hfirst
    have h := totalsOf_extract_first_ok api fuel 0 0 m hm
      (by simpa using hok) (fun m2 h2 => by simpa using hfirst m2 h2)
    simpa using h
  · intro hall
    exact totalsOf_extract_no_ok api fuel 0 0
      (fun m hm => by simpa using hall m hm)
  · have h := htracks
    simpa [recordOfItem] using h
  · rw [show trackRecsOf (get_all_saved_tracks api fuel).steps =
      ((List.range
        (fetchOffsets (get_all_saved_tracks api fuel).steps).length).flatMap
          fun m => itemsOf (api (0 + m))).filterMap
        (fun it => it.track.map fun t => recordOfItem t it.added_at)
      from htracks]
    rw [length_filterMap_track]
    simp

/-- C7 witness: the run fetches one page with two items, one of which has a
null track: exactly one Total event `[2]` (from the first successful call,
which is the second call — the first was rate-limited), and exactly one
Track event, normalized with artists `"A1, A2"` and image `some "u1"` (the
first image's url); the null-track item produces nothing. -/
theorem extractor_total_once_and_track_normalization_witness :
    totalsOf (get_all_saved_tracks (fun k =>
        match k with
        | 0 => ApiResult.raise429 (some 5)
        | 1 => ApiResult.ok ⟨2,
            [⟨some ⟨"t1", "N1", ["A1", "A2"], "Al1", ["u1", "u2"]⟩,
              "2024-01-01"⟩, ⟨none, "2024-01-02"⟩]⟩
        | _ => ApiResult.ok ⟨2, []⟩) 4).steps = [2] ∧
    trackRecsOf (get_all_saved_tracks (fun k =>
        match k with
        | 0 => ApiResult.raise429 (some 5)
        | 1 => ApiResult.ok ⟨2,
            [⟨some ⟨"t1", "N1", ["A1", "A2"], "Al1", ["u1", "u2"]⟩,
              "2024-01-01"⟩, ⟨none, "2024-01-02"⟩]⟩
        | _ => ApiResult.ok ⟨2, []⟩) 4).steps =
      [{ id := "t1", name := "N1", artists := "A1, A2", album := "Al1",
         image := some "u1", added_at := "2024-01-01" }] ∧
    (trackRecsOf (get_all_saved_tracks (fun k =>
        match k with
        | 0 => ApiResult.raise429 (some 5)
        | 1 => ApiResult.ok ⟨2,
            [⟨some ⟨"t1", "N1", ["A1", "A2"], "Al1", ["u1", "u2"]⟩,
              "2024-01-01"⟩, ⟨none, "2024-01-02"⟩]⟩
        | _ => ApiResult.ok ⟨2, []⟩) 4).steps).length = 1 := by
  have h := extractor_total_once_and_track_normalization (fun k =>
    match k with
    | 0 => ApiResult.raise429 (some 5)
    | 1 => ApiResult.ok ⟨2,
        [⟨some ⟨"t1", "N1", ["A1", "A2"], "Al1", ["u1", "u2"]⟩,
          "2024-01-01"⟩, ⟨none, "2024-01-02"⟩]⟩
    | _ => ApiResult.ok ⟨2, []⟩) 4
  refine ⟨?_, h.2.2.1.trans (by decide), h.2.2.2.trans (by decide)⟩
  exact (h.1 1 (by decide) (by decide) (by
    intro m2 hm2
    have hm0 : m2 = 0 := by omega
    subst hm0
    decide)).trans (by decide)

end SpotiTransfer
